import Mathlib

set_option maxRecDepth 8000

/-!
# Verification of the reth storage-provider and history-index subsystem

A shallow embedding of `crates/storage/provider/src/providers/database/provider.rs`
and the history-index stages, together with proofs about the sharded history
index, the reverse post-state reconstruction, and the block provider reads.

Machine integers (`u64`, `usize` on a 64-bit target) are modelled as `Nat`;
the constant `u64::MAX` appears explicitly where the code uses it as the
sentinel key of the open shard.  Database tables keyed by integers are
modelled as functions `Nat → Option α`; ordered map tables that the code
iterates (changesets, `BTreeMap`s) are modelled as key-sorted association
lists.  Fallible code returns `Except`; a Rust `panic!` / `unreachable!` /
`expect` failure is modelled by the distinguished `TransactionErrorM.panicked`
outcome, which is not a returned error value.
-/

/-- Update a function-backed table at one key (`put` / `upsert` with `some`,
`delete` with `none`). -/
def updFun {α : Type} (f : Nat → α) (k : Nat) (v : α) : Nat → α :=
  fun n => if n = k then v else f n

/-- Update a dup-sorted function-backed table at one (key, subkey) pair. -/
def updFun2 {α : Type} (f : Nat → Nat → α) (k1 k2 : Nat) (v : α) : Nat → Nat → α :=
  fun a b => if a = k1 ∧ b = k2 then v else f a b

/-- `walk_range(lo..=hi)` over a function-backed table: the present entries,
in ascending key order. -/
def rangeEntries {α : Type} (f : Nat → Option α) (lo hi : Nat) : List (Nat × α) :=
  (List.range' lo (hi + 1 - lo)).filterMap (fun n => (f n).map (fun v => (n, v)))

/-- Delete every key of `[lo, hi]` from a function-backed table (the effect of
`get_or_take::<_, true>` on the table). -/
def deleteRange {α : Type} (f : Nat → Option α) (lo hi : Nat) : Nat → Option α :=
  fun n => if lo ≤ n ∧ n ≤ hi then none else f n

/-- Lookup in an association list (`BTreeMap::get`, `seek_exact`). -/
def getA {κ β : Type} [DecidableEq κ] : List (κ × β) → κ → Option β
  | [], _ => none
  | (k, v) :: t, k0 => if k0 = k then some v else getA t k0

/-- Sorted insert-or-replace into an association list (`BTreeMap::insert`,
`tx.put`); `lt` is the key order. -/
def putA {κ β : Type} [DecidableEq κ] (lt : κ → κ → Bool) :
    List (κ × β) → κ → β → List (κ × β)
  | [], k0, v0 => [(k0, v0)]
  | (k, v) :: t, k0, v0 =>
    if lt k0 k then (k0, v0) :: (k, v) :: t
    else if k0 = k then (k0, v0) :: t
    else (k, v) :: putA lt t k0 v0

/-- Remove a key from an association list (`tx.delete`). -/
def eraseA {κ β : Type} [DecidableEq κ] : List (κ × β) → κ → List (κ × β)
  | [], _ => []
  | (k, v) :: t, k0 => if k0 = k then t else (k, v) :: eraseA t k0

/-- Key order used for `Nat`-keyed `BTreeMap`s and tables. -/
def natLt (a b : Nat) : Bool := a < b

/-- Lexicographic order on pairs, the order of `(Address, StorageKey)` and of
`BlockNumberAddress` keys. -/
def pairLt (a b : Nat × Nat) : Bool := a.1 < b.1 || (a.1 = b.1 && a.2 < b.2)

/-- Split a list into consecutive chunks of `n` elements, the final chunk
possibly shorter (`Itertools::chunks(n)` collected; the code always uses
`n = NUM_OF_INDICES_IN_SHARD > 0`). -/
def chunksOf {α : Type} (n : Nat) (l : List α) : List (List α) :=
  match n, l with
  | 0, _ => []
  | _ + 1, [] => []
  | m + 1, x :: xs => (x :: xs).take (m + 1) :: chunksOf (m + 1) ((x :: xs).drop (m + 1))
termination_by l.length
decreasing_by
  simp only [List.length_drop, List.length_cons]
  omega

theorem chunksOf_nil {α : Type} (n : Nat) : chunksOf n ([] : List α) = [] := by
  cases n <;> simp [chunksOf]

theorem chunksOf_cons_eq {α : Type} {n : Nat} {l : List α} (hn : n ≠ 0) (hl : l ≠ []) :
    chunksOf n l = l.take n :: chunksOf n (l.drop n) := by
  cases n with
  | zero => exact absurd rfl hn
  | succ m =>
    cases l with
    | nil => exact absurd rfl hl
    | cons x xs => rw [chunksOf]

theorem chunksOf_eq_single {α : Type} {n : Nat} {l : List α} (hn : n ≠ 0) (hl : l ≠ [])
    (hlen : l.length ≤ n) : chunksOf n l = [l] := by
  rw [chunksOf_cons_eq hn hl]
  rw [List.take_of_length_le hlen, List.drop_eq_nil_of_le hlen, chunksOf_nil]

theorem chunksOf_append {α : Type} {n : Nat} {l m : List α} (hn : n ≠ 0)
    (hlen : l.length = n) : chunksOf n (l ++ m) = l :: chunksOf n m := by
  have hl : l ≠ [] := by
    intro h
    rw [h] at hlen
    exact hn hlen.symm
  have hne : l ++ m ≠ [] := by simp [hl]
  rw [chunksOf_cons_eq hn hne]
  rw [List.take_append_of_le_length (le_of_eq hlen.symm), List.take_of_length_le (le_of_eq hlen),
    List.drop_append_of_le_length (le_of_eq hlen.symm), List.drop_eq_nil_of_le (le_of_eq hlen)]
  simp

theorem drop_length_lt_of_ne {α : Type} {n : Nat} {l : List α} (hn : n ≠ 0) (hl : l ≠ []) :
    (l.drop n).length < l.length := by
  have hnpos : 0 < n := Nat.pos_of_ne_zero hn
  have hlpos : 0 < l.length := List.length_pos.mpr hl
  simpa using Nat.sub_lt hlpos hnpos

theorem chunksOf_flatten {α : Type} (n : Nat) (l : List α) (hn : n ≠ 0) :
    (chunksOf n l).flatten = l := by
  by_cases hl : l = []
  · simp [hl, chunksOf_nil]
  · rw [chunksOf_cons_eq hn hl]
    have := drop_length_lt_of_ne hn hl
    rw [List.flatten_cons, chunksOf_flatten n (l.drop n) hn]
    exact List.take_append_drop n l
termination_by l.length

theorem chunksOf_ne_nil_mem {α : Type} (n : Nat) (l : List α) (hn : n ≠ 0) :
    ∀ c ∈ chunksOf n l, c ≠ [] ∧ c.length ≤ n := by
  by_cases hl : l = []
  · simp [hl, chunksOf_nil]
  · rw [chunksOf_cons_eq hn hl]
    intro c hc
    rcases List.mem_cons.mp hc with h | h
    · subst h
      refine ⟨?_, by simp⟩
      have : 0 < min n l.length :=
        lt_min (Nat.pos_of_ne_zero hn) (List.length_pos.mpr hl)
      intro hnil
      rw [← List.length_eq_zero] at hnil
      rw [List.length_take] at hnil
      omega
    · have := drop_length_lt_of_ne hn hl
      exact chunksOf_ne_nil_mem n (l.drop n) hn c h
termination_by l.length

theorem chunksOf_dropLast_length {α : Type} (n : Nat) (l : List α) (hn : n ≠ 0) :
    ∀ c ∈ (chunksOf n l).dropLast, c.length = n := by
  by_cases hl : l = []
  · simp [hl, chunksOf_nil]
  · rw [chunksOf_cons_eq hn hl]
    by_cases hr : chunksOf n (l.drop n) = []
    · simp [hr]
    · rw [List.dropLast_cons_of_ne_nil hr]
      intro c hc
      rcases List.mem_cons.mp hc with h | h
      · subst h
        have hdrop : l.drop n ≠ [] := by
          intro hd
          rw [hd, chunksOf_nil] at hr
          exact hr rfl
        have : n < l.length := by
          by_contra hcon
          push_neg at hcon
          exact hdrop (List.drop_eq_nil_of_le hcon)
        rw [List.length_take]
        omega
      · have := drop_length_lt_of_ne hn hl
        exact chunksOf_dropLast_length n (l.drop n) hn c h
termination_by l.length

theorem getA_putA {κ β : Type} [DecidableEq κ] (lt : κ → κ → Bool) (t : List (κ × β))
    (k k0 : κ) (v : β) :
    getA (putA lt t k v) k0 = if k0 = k then some v else getA t k0 := by
  induction t with
  | nil => by_cases h : k0 = k <;> simp [putA, getA, h]
  | cons p t ih =>
    obtain ⟨k1, v1⟩ := p
    by_cases hlt : lt k k1
    · by_cases h : k0 = k <;> simp [putA, getA, hlt, h]
    · by_cases heq : k = k1
      · subst heq
        by_cases h : k0 = k <;> simp [putA, getA, hlt, h]
      · by_cases h : k0 = k
        · subst h
          simp [putA, getA, hlt, heq, Ne.symm heq, ih]
        · by_cases h1 : k0 = k1 <;> simp [putA, getA, hlt, heq, h, h1, ih, Ne.symm heq]

theorem putA_append_natLt (t : List (Nat × List Nat)) (k : Nat) (v : List Nat)
    (hk : ∀ k' ∈ t.map Prod.fst, k' < k) : putA natLt t k v = t ++ [(k, v)] := by
  induction t with
  | nil => simp [putA]
  | cons p t ih =>
    obtain ⟨k1, v1⟩ := p
    have h1 : k1 < k := hk k1 (by simp)
    have hlt : natLt k k1 = false := by
      simp [natLt]
      omega
    have hne : k ≠ k1 := by omega
    simp [putA, hlt, hne]
    exact ih (fun k' h => hk k' (by simp [h]))

theorem getA_append_last {κ β : Type} [DecidableEq κ] (t : List (κ × β)) (k : κ) (v : β)
    (hk : ∀ k' ∈ t.map Prod.fst, k' ≠ k) : getA (t ++ [(k, v)]) k = some v := by
  induction t with
  | nil => simp [getA]
  | cons p t ih =>
    obtain ⟨k1, v1⟩ := p
    have h1 : k1 ≠ k := hk k1 (by simp)
    simp [getA, Ne.symm h1]
    exact ih (fun k' h => hk k' (by simp [h]))

theorem getA_not_mem {κ β : Type} [DecidableEq κ] (t : List (κ × β)) (k : κ)
    (hk : ∀ k' ∈ t.map Prod.fst, k' ≠ k) : getA t k = none := by
  induction t with
  | nil => rfl
  | cons p t ih =>
    obtain ⟨k1, v1⟩ := p
    have h1 : k1 ≠ k := hk k1 (by simp)
    simp [getA, Ne.symm h1]
    exact ih (fun k' h => hk k' (by simp [h]))

theorem eraseA_append_last {κ β : Type} [DecidableEq κ] (t : List (κ × β)) (k : κ) (v : β)
    (hk : ∀ k' ∈ t.map Prod.fst, k' ≠ k) : eraseA (t ++ [(k, v)]) k = t := by
  induction t with
  | nil => simp [eraseA]
  | cons p t ih =>
    obtain ⟨k1, v1⟩ := p
    have h1 : k1 ≠ k := hk k1 (by simp)
    simp [eraseA, Ne.symm h1]
    exact ih (fun k' h => hk k' (by simp [h]))

/-- Last-write-wins description of folding `putA` over a list of bindings. -/
theorem getA_foldl_putA {κ β : Type} [DecidableEq κ] (lt : κ → κ → Bool)
    (l : List (κ × β)) (init : List (κ × β)) (k : κ) :
    getA (l.foldl (fun acc p => putA lt acc p.1 p.2) init) k =
      match l.reverse.find? (fun p => p.1 = k) with
      | some p => some p.2
      | none => getA init k := by
  induction l generalizing init with
  | nil => simp
  | cons p l ih =>
    obtain ⟨k1, v1⟩ := p
    rw [List.foldl_cons, ih]
    rw [List.reverse_cons, List.find?_append]
    cases hfind : List.find? (fun p => decide (p.1 = k)) l.reverse with
    | some q => simp
    | none =>
      simp only [Option.none_or]
      by_cases h : k1 = k
      · subst h
        simp [getA_putA]
      · simp [List.find?, h, getA_putA, Ne.symm h]

/-- Modelled from the spec: `NUM_OF_INDICES_IN_SHARD` is defined in
`reth_db::models::sharded_key` / `storage_sharded_key`, which is not part of
this snapshot.  The spec fixes it as the shard-size target `SHARD_SIZE`
("pick a value that keeps a shard under ~2KB compressed, e.g., 2000 entries"). -/
def NUM_OF_INDICES_IN_SHARD : Nat := 2000

/-- `u64::MAX`, the sentinel `highest_block_number` of the open shard. -/
def U64MAX : Nat := 2 ^ 64 - 1

/-- The shards of one logical history key (one address, or one
(address, storage_key) pair): the key-sorted list of
`(highest_block_number, block_number_list)` rows of `AccountHistory` /
`StorageHistory` restricted to that logical key.  `BlockNumberList` is
modelled as a plain `List Nat`. -/
abbrev ShardTable := List (Nat × List Nat)

/-- All keys (`highest_block_number`) of the shards of one logical key. -/
def shardKeys (t : ShardTable) : List Nat := t.map Prod.fst

/-- All stored block numbers of one logical key, in table order. -/
def shardBlocks (t : ShardTable) : List Nat := (t.map Prod.snd).flatten

/-- `take_last_account_shard` / `take_last_storage_shard`: `seek_exact` the
shard keyed `u64::MAX`; if present, delete it and return its list. -/
def take_last_shard (t : ShardTable) : ShardTable × List Nat :=
  match getA t U64MAX with
  | some l => (eraseA t U64MAX, l)
  | none => (t, [])

/-- Per-address body of `insert_account_history_index` /
`insert_storage_history_index`: pop the open shard, append the new indices,
chunk by `NUM_OF_INDICES_IN_SHARD`, write every chunk but the last under the
key given by its own last block, and write the last chunk (if the combined
list was non-empty) back under `u64::MAX`. -/
def insert_history_index (t : ShardTable) (indices : List Nat) : ShardTable :=
  let p := take_last_shard t
  let all := p.2 ++ indices
  let chunks := chunksOf NUM_OF_INDICES_IN_SHARD all
  let lastChunk := chunks.getLast?
  let fulls := chunks.dropLast
  let t2 := fulls.foldl (fun acc c => putA natLt acc (c.getLastD 0) c) p.1
  match lastChunk with
  | some c => putA natLt t2 U64MAX c
  | none => t2

/-- The cursor loop of `unwind_account_history_shards` /
`unwind_storage_history_shards`.  The argument is the address's shards at and
below the cursor, in descending key order (the cursor walks with `prev`); every
visited shard is deleted (`delete_current`).  Returns the shards that were
never visited (still descending) and the list the caller must re-insert. -/
def unwind_history_shards_go (b : Nat) :
    List (Nat × List Nat) → List (Nat × List Nat) × List Nat
  | [] => ([], [])
  | (h, l) :: rest =>
    if b ≤ l.headD 0 then unwind_history_shards_go b rest
    else if b ≤ h then (rest, l.takeWhile (fun i => i < b))
    else (rest, l)

/-- `unwind_account_history_shards` / `unwind_storage_history_shards` for one
logical key: `seek_exact` the `u64::MAX` shard (if absent nothing is walked),
then walk the key's shards descending, deleting each visited shard; return the
remaining table and the still-valid part of the boundary shard.  (Shard keys
are `u64` values, hence ≤ `u64::MAX`, so the sorted table's last row is the
`u64::MAX` row whenever one exists.) -/
def unwind_history_shards (t : ShardTable) (b : Nat) : ShardTable × List Nat :=
  match getA t U64MAX with
  | none => (t, [])
  | some _ =>
    let r := unwind_history_shards_go b t.reverse
    (r.1.reverse, r.2)

/-- Per-address body of `unwind_account_history_indices` /
`unwind_storage_history_indices`: unwind the shards and, if the returned
`shard_part` is non-empty, re-insert it under `u64::MAX`. -/
def unwind_history_index (t : ShardTable) (b : Nat) : ShardTable :=
  let r := unwind_history_shards t b
  if r.2 = [] then r.1 else putA natLt r.1 U64MAX r.2

theorem getLastD_mem {α : Type} (l : List α) (d : α) (h : l ≠ []) : l.getLastD d ∈ l := by
  rw [List.getLastD_eq_getLast?, List.getLast?_eq_getLast l h]
  exact List.getLast_mem h

theorem getLast?_eq_getLastD {α : Type} (l : List α) (d : α) (h : l ≠ []) :
    l.getLast? = some (l.getLastD d) := by
  rw [List.getLastD_eq_getLast?, List.getLast?_eq_getLast l h]
  simp

theorem getLastD_congr {α : Type} (l : List α) (d1 d2 : α) (h : l ≠ []) :
    l.getLastD d1 = l.getLastD d2 := by
  rw [List.getLastD_eq_getLast?, List.getLastD_eq_getLast?, List.getLast?_eq_getLast l h]
  simp

theorem le_getLastD_of_pairwise {l : List Nat} (hs : l.Pairwise (· < ·)) {x : Nat}
    (hx : x ∈ l) (d : Nat) : x ≤ l.getLastD d := by
  induction l with
  | nil => cases hx
  | cons a t ih =>
    rw [List.getLastD_cons]
    rcases List.mem_cons.mp hx with h | h
    · subst h
      by_cases ht : t = []
      · simp [ht]
      · have hmem := getLastD_mem t x ht
        exact le_of_lt ((List.pairwise_cons.mp hs).1 _ hmem)
    · have ht : t ≠ [] := List.ne_nil_of_mem h
      rw [getLastD_congr t a d ht]
      exact ih (List.pairwise_cons.mp hs).2 h

theorem take_last_shard_append (t0 : ShardTable) (l0 : List Nat)
    (h : ∀ k ∈ shardKeys t0, k ≠ U64MAX) :
    take_last_shard (t0 ++ [(U64MAX, l0)]) = (t0, l0) := by
  unfold take_last_shard
  rw [getA_append_last t0 U64MAX l0 h, eraseA_append_last t0 U64MAX l0 h]

theorem take_last_shard_nil : take_last_shard [] = ([], []) := rfl

/-- Folding shard-chunk `put`s over strictly ascending fresh keys appends the
chunks in order. -/
theorem foldl_putA_chunks (cs : List (List Nat)) :
    ∀ (t : ShardTable),
      (t.map Prod.fst ++ cs.map (fun c => c.getLastD 0)).Pairwise (· < ·) →
      cs.foldl (fun acc c => putA natLt acc (c.getLastD 0) c) t =
        t ++ cs.map (fun c => (c.getLastD 0, c)) := by
  induction cs with
  | nil => simp
  | cons c cs ih =>
    intro t hp
    have hlt : ∀ k ∈ t.map Prod.fst, k < c.getLastD 0 := by
      intro k hk
      exact (List.pairwise_append.mp hp).2.2 k hk _ (by simp)
    rw [List.foldl_cons, putA_append_natLt t _ c hlt]
    rw [ih (t ++ [(c.getLastD 0, c)]) ?_]
    · simp
    · have : (t ++ [(c.getLastD 0, c)]).map Prod.fst ++ cs.map (fun c => c.getLastD 0) =
          t.map Prod.fst ++ (c.getLastD 0 :: cs.map (fun c => c.getLastD 0)) := by
        simp
      rw [this]
      simpa using hp

/-- Characterization of one `insert_account_history_index` /
`insert_storage_history_index` loop iteration on a well-formed shard table:
the combined list is chunked, all chunks but the last land under their own
last block number, the last chunk lands under `u64::MAX`. -/
theorem insert_history_index_eq (t t0 : ShardTable) (l0 indices : List Nat)
    (htake : take_last_shard t = (t0, l0))
    (hkeys0 : (shardKeys t0).Pairwise (· < ·))
    (hlt : ∀ k ∈ shardKeys t0, ∀ x ∈ l0 ++ indices, k < x)
    (hsorted : (l0 ++ indices).Pairwise (· < ·))
    (hub : ∀ x ∈ l0 ++ indices, x ≤ U64MAX)
    (hne : indices ≠ []) :
    insert_history_index t indices =
      t0 ++ (chunksOf NUM_OF_INDICES_IN_SHARD (l0 ++ indices)).dropLast.map
          (fun c => (c.getLastD 0, c))
        ++ [(U64MAX, (chunksOf NUM_OF_INDICES_IN_SHARD (l0 ++ indices)).getLastD [])] := by
  have hS : NUM_OF_INDICES_IN_SHARD ≠ 0 := by decide
  have hallne : l0 ++ indices ≠ [] := by simp [hne]
  set all := l0 ++ indices with hall
  set cs := chunksOf NUM_OF_INDICES_IN_SHARD all with hcs
  have hcsne : cs ≠ [] := by
    rw [hcs, chunksOf_cons_eq hS hallne]
    simp
  -- chunk membership facts
  have hchunk_mem : ∀ c ∈ cs, ∀ x ∈ c, x ∈ all := by
    intro c hc x hx
    rw [← chunksOf_flatten NUM_OF_INDICES_IN_SHARD all hS]
    exact List.mem_flatten.mpr ⟨c, hc, hx⟩
  have hchunk_ne : ∀ c ∈ cs, c ≠ [] := fun c hc =>
    (chunksOf_ne_nil_mem NUM_OF_INDICES_IN_SHARD all hS c hc).1
  have hflat : cs.flatten = all := chunksOf_flatten NUM_OF_INDICES_IN_SHARD all hS
  have hpairflat : cs.flatten.Pairwise (· < ·) := by
    rw [hflat]
    exact hsorted
  have hcross := (List.pairwise_flatten.mp hpairflat).2
  -- keys of the chunks are strictly ascending
  have hkeys_chunks : (cs.map (fun c => c.getLastD 0)).Pairwise (· < ·) := by
    rw [List.pairwise_map]
    refine hcross.imp_of_mem ?_
    intro c1 c2 h1 h2 h12
    exact h12 _ (getLastD_mem c1 0 (hchunk_ne c1 h1)) _ (getLastD_mem c2 0 (hchunk_ne c2 h2))
  -- the last chunk
  have hlast : cs.getLast? = some (cs.getLastD []) := getLast?_eq_getLastD cs [] hcsne
  have hdecomp : cs.dropLast ++ [cs.getLastD []] = cs := by
    have := List.dropLast_append_getLast hcsne
    rw [getLastD_congr cs [] (cs.getLast hcsne) hcsne]
    rw [List.getLastD_eq_getLast?, List.getLast?_eq_getLast cs hcsne]
    simpa using this
  have hlastC_mem : cs.getLastD [] ∈ cs := getLastD_mem cs [] hcsne
  have hlastC_ne : cs.getLastD [] ≠ [] := hchunk_ne _ hlastC_mem
  -- the keys written by the fold
  have hkeyfold : ((t0.map Prod.fst) ++ cs.dropLast.map (fun c => c.getLastD 0)).Pairwise
      (· < ·) := by
    rw [List.pairwise_append]
    refine ⟨hkeys0, List.Pairwise.sublist (List.Sublist.map _ (List.dropLast_sublist cs))
      hkeys_chunks, ?_⟩
    intro a ha b hb
    obtain ⟨c, hc, hcb⟩ := List.mem_map.mp hb
    have hccs : c ∈ cs := List.Sublist.mem hc (List.dropLast_sublist cs)
    have : c.getLastD 0 ∈ all := hchunk_mem c hccs _ (getLastD_mem c 0 (hchunk_ne c hccs))
    rw [← hcb]
    exact hlt a ha _ this
  have hfold := foldl_putA_chunks cs.dropLast t0 hkeyfold
  -- all keys produced so far are < U64MAX
  have hallUB : ∀ k ∈ (t0 ++ cs.dropLast.map (fun c => (c.getLastD 0, c))).map Prod.fst,
      k < U64MAX := by
    intro k hk
    rw [List.map_append, List.mem_append] at hk
    rcases hk with hk | hk
    · obtain ⟨y, hy⟩ := List.exists_mem_of_ne_nil all hallne
      exact lt_of_lt_of_le (hlt k hk y hy) (hub y hy)
    · rw [List.map_map] at hk
      obtain ⟨c, hc, hck⟩ := List.mem_map.mp hk
      have hccs : c ∈ cs.dropLast := hc
      -- a non-final chunk key is smaller than any element of the final chunk
      obtain ⟨y, hy⟩ := List.exists_mem_of_ne_nil _ hlastC_ne
      have hrel : ∀ x ∈ c, ∀ y ∈ cs.getLastD [], x < y := by
        have hp : List.Pairwise (fun l₁ l₂ => ∀ x ∈ l₁, ∀ y ∈ l₂, x < y)
            (cs.dropLast ++ [cs.getLastD []]) := by
          rw [hdecomp]
          exact hcross
        exact (List.pairwise_append.mp hp).2.2 c hccs _ (by simp)
      have hkc : c.getLastD 0 ∈ c :=
        getLastD_mem c 0 (hchunk_ne c (List.Sublist.mem hc (List.dropLast_sublist cs)))
      have hyall : y ∈ all := hchunk_mem _ hlastC_mem y hy
      calc k = c.getLastD 0 := hck.symm
        _ < y := hrel _ hkc y hy
        _ ≤ U64MAX := hub y hyall
  -- now unfold the insertion
  show insert_history_index t indices = _
  unfold insert_history_index
  rw [htake]
  simp only [← hall, ← hcs, hlast, hfold]
  rw [putA_append_natLt _ _ _ hallUB]

/-- Characterization of the descending cursor loop: the visited shards are a
prefix of the input (all deleted); the loop either exhausts the input with
nothing to re-insert, or stops at a boundary shard and returns, as the part to
re-insert, that shard's `take_while (< b)` prefix or its whole list. -/
theorem unwind_history_shards_go_spec (b : Nat) (u : List (Nat × List Nat))
    (hne : ∀ p ∈ u, p.2 ≠ []) :
    ∃ u1, u = u1 ++ (unwind_history_shards_go b u).1 ∧
      (((unwind_history_shards_go b u).2 = [] ∧ (unwind_history_shards_go b u).1 = []) ∨
        (∃ h l, u1.getLast? = some (h, l) ∧
          ((unwind_history_shards_go b u).2 = l.takeWhile (fun i => i < b) ∧ b ≤ h ∨
            (unwind_history_shards_go b u).2 = l ∧ h < b) ∧
          (unwind_history_shards_go b u).2 ≠ [])) := by
  induction u with
  | nil => exact ⟨[], by simp [unwind_history_shards_go]⟩
  | cons p u ih =>
    obtain ⟨h, l⟩ := p
    have hlne : l ≠ [] := hne (h, l) (by simp)
    by_cases h1 : b ≤ l.headD 0
    · -- first >= block_number: shard deleted entirely, continue downward
      obtain ⟨u1, hu1, hcases⟩ := ih (fun q hq => hne q (by simp [hq]))
      refine ⟨(h, l) :: u1, ?_, ?_⟩
      · simp only [unwind_history_shards_go, if_pos h1]
        rw [List.cons_append, ← hu1]
      · simp only [unwind_history_shards_go, if_pos h1]
        rcases hcases with hc | ⟨h', l', hlast, hrest⟩
        · exact Or.inl hc
        · refine Or.inr ⟨h', l', ?_, hrest⟩
          cases u1 with
          | nil => simp at hlast
          | cons q qs => rw [List.getLast?_cons_cons, hlast]
    · by_cases h2 : b ≤ h
      · -- boundary shard: delete it and keep its prefix of survivors
        have hgo : unwind_history_shards_go b ((h, l) :: u) =
            (u, l.takeWhile (fun i => i < b)) := by
          simp only [unwind_history_shards_go]
          rw [if_neg h1, if_pos h2]
        refine ⟨[(h, l)], by simp [hgo], Or.inr ⟨h, l, by simp, ?_, ?_⟩⟩
        · rw [hgo]
          exact Or.inl ⟨rfl, h2⟩
        · rw [hgo]
          cases l with
          | nil => exact absurd rfl hlne
          | cons x xs =>
            have hx : x < b := by
              simp only [List.headD_cons] at h1
              omega
            simp [List.takeWhile_cons, hx]
      · -- whole shard survives: it was still deleted, its full list is returned
        have hgo : unwind_history_shards_go b ((h, l) :: u) = (u, l) := by
          simp only [unwind_history_shards_go]
          rw [if_neg h1, if_neg h2]
        refine ⟨[(h, l)], by simp [hgo], Or.inr ⟨h, l, by simp, ?_, ?_⟩⟩
        · rw [hgo]
          right
          exact ⟨rfl, by omega⟩
        · rw [hgo]
          exact hlne

/-- The shard-packing invariant (spec I5 / P2) for the shards of one logical
key: table keys strictly ascending; all stored blocks strictly ascending
across the shards; every shard non-empty; every block ≤ its shard key; keys
are `u64` values; every shard not keyed `u64::MAX` ends exactly at its key and
holds exactly `NUM_OF_INDICES_IN_SHARD` blocks; and when any shard exists the
(unique, because keys are sorted) open shard keyed `u64::MAX` is the last row. -/
structure ShardInv (t : ShardTable) : Prop where
  keys_sorted : (shardKeys t).Pairwise (· < ·)
  blocks_sorted : (shardBlocks t).Pairwise (· < ·)
  shard_nonempty : ∀ p ∈ t, p.2 ≠ []
  blocks_le_key : ∀ p ∈ t, ∀ x ∈ p.2, x ≤ p.1
  key_le_max : ∀ p ∈ t, p.1 ≤ U64MAX
  full_closed : ∀ p ∈ t, p.1 ≠ U64MAX →
    p.2.getLast? = some p.1 ∧ p.2.length = NUM_OF_INDICES_IN_SHARD
  open_is_last : t = [] ∨ ∃ t0 l0, t = t0 ++ [(U64MAX, l0)]

theorem shardKeys_append (t1 t2 : ShardTable) :
    shardKeys (t1 ++ t2) = shardKeys t1 ++ shardKeys t2 := by
  simp [shardKeys]

theorem shardBlocks_append (t1 t2 : ShardTable) :
    shardBlocks (t1 ++ t2) = shardBlocks t1 ++ shardBlocks t2 := by
  simp [shardBlocks]

theorem mem_shardBlocks {t : ShardTable} {p : Nat × List Nat} (hp : p ∈ t) {x : Nat}
    (hx : x ∈ p.2) : x ∈ shardBlocks t := by
  simp only [shardBlocks, List.mem_flatten]
  exact ⟨p.2, List.mem_map.mpr ⟨p, hp, rfl⟩, hx⟩

theorem shardInv_nil : ShardInv [] := by
  constructor <;> simp [shardKeys, shardBlocks]

/-- The invariant holds for the result shape of one history-index insertion. -/
theorem shardInv_insert_shape (t0 : ShardTable) (all : List Nat)
    (hkeys0 : (shardKeys t0).Pairwise (· < ·))
    (hblocks0 : (shardBlocks t0).Pairwise (· < ·))
    (hprop0 : ∀ p ∈ t0, p.2 ≠ [] ∧ (∀ x ∈ p.2, x ≤ p.1) ∧
      (p.2.getLast? = some p.1 ∧ p.2.length = NUM_OF_INDICES_IN_SHARD))
    (hlt : ∀ k ∈ shardKeys t0, ∀ x ∈ all, k < x)
    (hbcross : ∀ x ∈ shardBlocks t0, ∀ y ∈ all, x < y)
    (hsorted : all.Pairwise (· < ·))
    (hub : ∀ x ∈ all, x ≤ U64MAX)
    (hallne : all ≠ []) :
    ShardInv (t0 ++ (chunksOf NUM_OF_INDICES_IN_SHARD all).dropLast.map
        (fun c => (c.getLastD 0, c))
      ++ [(U64MAX, (chunksOf NUM_OF_INDICES_IN_SHARD all).getLastD [])]) := by
  have hS : NUM_OF_INDICES_IN_SHARD ≠ 0 := by decide
  set cs := chunksOf NUM_OF_INDICES_IN_SHARD all with hcs
  have hcsne : cs ≠ [] := by
    rw [hcs, chunksOf_cons_eq hS hallne]
    simp
  have hchunk_mem : ∀ c ∈ cs, ∀ x ∈ c, x ∈ all := by
    intro c hc x hx
    rw [← chunksOf_flatten NUM_OF_INDICES_IN_SHARD all hS]
    exact List.mem_flatten.mpr ⟨c, hc, hx⟩
  have hchunk_ne : ∀ c ∈ cs, c ≠ [] := fun c hc =>
    (chunksOf_ne_nil_mem NUM_OF_INDICES_IN_SHARD all hS c hc).1
  have hflat : cs.flatten = all := chunksOf_flatten NUM_OF_INDICES_IN_SHARD all hS
  have hpairflat : cs.flatten.Pairwise (· < ·) := by
    rw [hflat]
    exact hsorted
  have hchunk_pair : ∀ c ∈ cs, c.Pairwise (· < ·) := (List.pairwise_flatten.mp hpairflat).1
  have hcross := (List.pairwise_flatten.mp hpairflat).2
  have hkeys_chunks : (cs.map (fun c => c.getLastD 0)).Pairwise (· < ·) := by
    rw [List.pairwise_map]
    refine hcross.imp_of_mem ?_
    intro c1 c2 h1 h2 h12
    exact h12 _ (getLastD_mem c1 0 (hchunk_ne c1 h1)) _ (getLastD_mem c2 0 (hchunk_ne c2 h2))
  have hdecomp : cs.dropLast ++ [cs.getLastD []] = cs := by
    have := List.dropLast_append_getLast hcsne
    rw [getLastD_congr cs [] (cs.getLast hcsne) hcsne]
    rw [List.getLastD_eq_getLast?, List.getLast?_eq_getLast cs hcsne]
    simpa using this
  have hlastC_mem : cs.getLastD [] ∈ cs := getLastD_mem cs [] hcsne
  have hlastC_ne : cs.getLastD [] ≠ [] := hchunk_ne _ hlastC_mem
  have hfull_mem : ∀ c ∈ cs.dropLast, c ∈ cs := fun c hc =>
    List.Sublist.mem hc (List.dropLast_sublist cs)
  -- every key written for a full chunk is strictly below U64MAX
  have hfullkey_lt : ∀ c ∈ cs.dropLast, c.getLastD 0 < U64MAX := by
    intro c hc
    obtain ⟨y, hy⟩ := List.exists_mem_of_ne_nil _ hlastC_ne
    have hrel : ∀ x ∈ c, ∀ y ∈ cs.getLastD [], x < y := by
      have hp : List.Pairwise (fun l₁ l₂ => ∀ x ∈ l₁, ∀ y ∈ l₂, x < y)
          (cs.dropLast ++ [cs.getLastD []]) := by
        rw [hdecomp]
        exact hcross
      exact (List.pairwise_append.mp hp).2.2 c hc _ (by simp)
    have hkc : c.getLastD 0 ∈ c := getLastD_mem c 0 (hchunk_ne c (hfull_mem c hc))
    have hyall : y ∈ all := hchunk_mem _ hlastC_mem y hy
    exact lt_of_lt_of_le (hrel _ hkc y hy) (hub y hyall)
  have hkey0_lt : ∀ k ∈ shardKeys t0, k < U64MAX := by
    intro k hk
    obtain ⟨y, hy⟩ := List.exists_mem_of_ne_nil all hallne
    exact lt_of_lt_of_le (hlt k hk y hy) (hub y hy)
  rw [List.append_assoc]
  constructor
  · -- keys strictly ascending
    rw [shardKeys_append, shardKeys_append]
    rw [List.pairwise_append]
    refine ⟨hkeys0, ?_, ?_⟩
    · rw [List.pairwise_append]
      refine ⟨?_, by simp [shardKeys], ?_⟩
      · simp only [shardKeys, List.map_map]
        exact List.Pairwise.sublist (List.Sublist.map _ (List.dropLast_sublist cs)) hkeys_chunks
      · intro a ha b hb
        simp only [shardKeys, List.map_map, List.mem_map] at ha
        simp only [shardKeys, List.mem_map] at hb
        obtain ⟨c, hc, hck⟩ := ha
        obtain ⟨q, hq, hqk⟩ := hb
        simp only [List.mem_singleton] at hq
        subst hq
        rw [← hck, ← hqk]
        exact hfullkey_lt c hc
    · intro a ha b hb
      rw [List.mem_append] at hb
      rcases hb with hb | hb
      · simp only [shardKeys, List.map_map, List.mem_map] at hb
        obtain ⟨c, hc, hck⟩ := hb
        have : c.getLastD 0 ∈ all :=
          hchunk_mem c (hfull_mem c hc) _ (getLastD_mem c 0 (hchunk_ne c (hfull_mem c hc)))
        rw [← hck]
        exact hlt a ha _ this
      · simp only [shardKeys, List.map_singleton, List.mem_singleton] at hb
        subst hb
        exact hkey0_lt a ha
  · -- blocks strictly ascending
    rw [shardBlocks_append, shardBlocks_append]
    have hmapsnd : shardBlocks ((cs.dropLast).map (fun c => (c.getLastD 0, c))) =
        cs.dropLast.flatten := by
      simp only [shardBlocks, List.map_map]
      rw [show (Prod.snd ∘ fun c : List Nat => (c.getLastD 0, c)) = id from rfl, List.map_id]
    have hsingle : ∀ (k : Nat) (lc : List Nat), shardBlocks [(k, lc)] = lc := by
      intro k lc
      simp [shardBlocks]
    have hrest : cs.dropLast.flatten ++ cs.getLastD [] = all := by
      rw [← hflat, ← hdecomp, List.flatten_append]
      simp
    rw [hmapsnd, hsingle, hrest]
    rw [List.pairwise_append]
    exact ⟨hblocks0, hsorted, hbcross⟩
  · -- non-empty shards
    intro p hp
    rcases List.mem_append.mp hp with hp | hp
    · exact (hprop0 p hp).1
    · rcases List.mem_append.mp hp with hp | hp
      · obtain ⟨c, hc, hcp⟩ := List.mem_map.mp hp
        rw [← hcp]
        exact hchunk_ne c (hfull_mem c hc)
      · simp only [List.mem_singleton] at hp
        subst hp
        exact hlastC_ne
  · -- blocks bounded by their key
    intro p hp x hx
    rcases List.mem_append.mp hp with hp | hp
    · exact (hprop0 p hp).2.1 x hx
    · rcases List.mem_append.mp hp with hp | hp
      · obtain ⟨c, hc, hcp⟩ := List.mem_map.mp hp
        rw [← hcp] at hx ⊢
        exact le_getLastD_of_pairwise (hchunk_pair c (hfull_mem c hc)) hx 0
      · simp only [List.mem_singleton] at hp
        subst hp
        exact hub x (hchunk_mem _ hlastC_mem x hx)
  · -- keys are u64 values
    intro p hp
    rcases List.mem_append.mp hp with hp | hp
    · exact le_of_lt (hkey0_lt p.1 (List.mem_map.mpr ⟨p, hp, rfl⟩))
    · rcases List.mem_append.mp hp with hp | hp
      · obtain ⟨c, hc, hcp⟩ := List.mem_map.mp hp
        rw [← hcp]
        exact le_of_lt (hfullkey_lt c hc)
      · simp only [List.mem_singleton] at hp
        subst hp
        exact le_refl _
  · -- closed shards end at their key and are exactly full
    intro p hp hpne
    rcases List.mem_append.mp hp with hp | hp
    · exact (hprop0 p hp).2.2
    · rcases List.mem_append.mp hp with hp | hp
      · obtain ⟨c, hc, hcp⟩ := List.mem_map.mp hp
        rw [← hcp]
        refine ⟨getLast?_eq_getLastD c 0 (hchunk_ne c (hfull_mem c hc)), ?_⟩
        exact chunksOf_dropLast_length NUM_OF_INDICES_IN_SHARD all hS c hc
      · simp only [List.mem_singleton] at hp
        subst hp
        exact absurd rfl hpne
  · -- the open shard is the last row
    right
    exact ⟨t0 ++ (cs.dropLast).map (fun c => (c.getLastD 0, c)), cs.getLastD [],
      (List.append_assoc _ _ _).symm⟩

/-- Appending a batch of strictly newer, sorted, non-empty indices through
`insert_account_history_index` / `insert_storage_history_index` preserves the
shard-packing invariant of the logical key. -/
theorem insert_history_index_preserves (t : ShardTable) (indices : List Nat)
    (hinv : ShardInv t) (hne : indices ≠ []) (hsorted : indices.Pairwise (· < ·))
    (hgt : ∀ x ∈ shardBlocks t, ∀ y ∈ indices, x < y)
    (hub : ∀ y ∈ indices, y ≤ U64MAX) :
    ShardInv (insert_history_index t indices) := by
  rcases hinv.open_is_last with hnil | ⟨t0, l0, hsplit⟩
  · -- the key had no shard at all
    subst hnil
    rw [insert_history_index_eq [] [] [] indices take_last_shard_nil
      (by simp [shardKeys]) (by simp [shardKeys]) (by simpa using hsorted)
      (by simpa using hub) hne]
    exact shardInv_insert_shape [] indices (by simp [shardKeys]) (by simp [shardBlocks])
      (by simp) (by simp [shardKeys]) (by simp [shardBlocks])
      (by simpa using hsorted) (by simpa using hub) (by simpa using hne)
  · subst hsplit
    have hkeyt : shardKeys (t0 ++ [(U64MAX, l0)]) = shardKeys t0 ++ [U64MAX] := by
      simp [shardKeys]
    have hkeys0max : ∀ k ∈ shardKeys t0, k < U64MAX := by
      intro k hk
      have := hinv.keys_sorted
      rw [hkeyt, List.pairwise_append] at this
      exact this.2.2 k hk U64MAX (by simp)
    have hkeys0ne : ∀ k ∈ shardKeys t0, k ≠ U64MAX := fun k hk => ne_of_lt (hkeys0max k hk)
    have htake := take_last_shard_append t0 l0 hkeys0ne
    have hblockt : shardBlocks (t0 ++ [(U64MAX, l0)]) = shardBlocks t0 ++ l0 := by
      simp [shardBlocks]
    have hkeys0 : (shardKeys t0).Pairwise (· < ·) := by
      have := hinv.keys_sorted
      rw [hkeyt, List.pairwise_append] at this
      exact this.1
    have hblocks0 : (shardBlocks t0).Pairwise (· < ·) := by
      have := hinv.blocks_sorted
      rw [hblockt, List.pairwise_append] at this
      exact this.1
    have hl0pair : l0.Pairwise (· < ·) := by
      have := hinv.blocks_sorted
      rw [hblockt, List.pairwise_append] at this
      exact this.2.1
    have hb0l0 : ∀ x ∈ shardBlocks t0, ∀ y ∈ l0, x < y := by
      have := hinv.blocks_sorted
      rw [hblockt, List.pairwise_append] at this
      exact this.2.2
    -- the key of every closed shard of t0 is one of its own stored blocks
    have hkey_in_blocks : ∀ k ∈ shardKeys t0, k ∈ shardBlocks t0 := by
      intro k hk
      obtain ⟨p, hp, hpk⟩ := List.mem_map.mp hk
      have hmem : p ∈ t0 ++ [(U64MAX, l0)] := List.mem_append.mpr (Or.inl hp)
      have hclosed := hinv.full_closed p hmem (by
        rw [hpk]
        exact hkeys0ne k hk)
      have : p.1 ∈ p.2 := by
        have hne2 : p.2 ≠ [] := hinv.shard_nonempty p hmem
        have := hclosed.1
        rw [List.getLast?_eq_getLast p.2 hne2] at this
        rw [show p.1 = p.2.getLast hne2 from (Option.some_inj.mp this).symm]
        exact List.getLast_mem hne2
      rw [← hpk]
      exact mem_shardBlocks hp this
    have hall_sorted : (l0 ++ indices).Pairwise (· < ·) := by
      rw [List.pairwise_append]
      refine ⟨hl0pair, hsorted, ?_⟩
      intro a ha b hb
      exact hgt a (by rw [hblockt]; exact List.mem_append.mpr (Or.inr ha)) b hb
    have hall_ub : ∀ x ∈ l0 ++ indices, x ≤ U64MAX := by
      intro x hx
      rcases List.mem_append.mp hx with hx | hx
      · exact hinv.blocks_le_key (U64MAX, l0) (List.mem_append.mpr (Or.inr (by simp))) x hx
      · exact hub x hx
    have hlt : ∀ k ∈ shardKeys t0, ∀ x ∈ l0 ++ indices, k < x := by
      intro k hk x hx
      have hkb := hkey_in_blocks k hk
      rcases List.mem_append.mp hx with hx | hx
      · exact hb0l0 k hkb x hx
      · exact hgt k (by rw [hblockt]; exact List.mem_append.mpr (Or.inl hkb)) x hx
    rw [insert_history_index_eq (t0 ++ [(U64MAX, l0)]) t0 l0 indices htake hkeys0
      hlt hall_sorted hall_ub hne]
    refine shardInv_insert_shape t0 (l0 ++ indices) hkeys0 hblocks0 ?_ hlt ?_
      hall_sorted hall_ub (by simp [hne])
    · intro p hp
      have hmem : p ∈ t0 ++ [(U64MAX, l0)] := List.mem_append.mpr (Or.inl hp)
      exact ⟨hinv.shard_nonempty p hmem, hinv.blocks_le_key p hmem,
        hinv.full_closed p hmem (by
          intro hc
          exact hkeys0ne p.1 (List.mem_map.mpr ⟨p, hp, rfl⟩) hc)⟩
    · intro x hx y hy
      rcases List.mem_append.mp hy with hy | hy
      · exact hb0l0 x hx y hy
      · exact hgt x (by rw [hblockt]; exact List.mem_append.mpr (Or.inl hx)) y hy

/-- Unwinding the history index of one logical key preserves the
shard-packing invariant, for any unwind boundary. -/
theorem unwind_history_index_preserves (t : ShardTable) (b : Nat) (hinv : ShardInv t) :
    ShardInv (unwind_history_index t b) := by
  unfold unwind_history_index unwind_history_shards
  cases hget : getA t U64MAX with
  | none => simpa using hinv
  | some l0 =>
    simp only
    have hne : ∀ p ∈ t.reverse, p.2 ≠ [] := by
      intro p hp
      exact hinv.shard_nonempty p (List.mem_reverse.mp hp)
    obtain ⟨u1, hu1, hcases⟩ := unwind_history_shards_go_spec b t.reverse hne
    set g := unwind_history_shards_go b t.reverse with hg
    have hsplit : t = g.1.reverse ++ u1.reverse := by
      have := congrArg List.reverse hu1
      rw [List.reverse_reverse, List.reverse_append] at this
      exact this
    rcases hcases with ⟨hpart, hrem⟩ | ⟨h, l, hlast, hpart, hpartne⟩
    · -- everything in range was deleted and nothing is left to re-insert
      rw [hpart, hrem]
      simp only [List.reverse_nil, if_pos rfl]
      exact shardInv_nil
    · -- the loop stopped at the boundary shard (h, l)
      have hu1ne : u1 ≠ [] := by
        intro hnil
        rw [hnil] at hlast
        simp at hlast
      have hu1split : u1 = u1.dropLast ++ [(h, l)] := by
        have := List.dropLast_append_getLast hu1ne
        rw [List.getLast?_eq_getLast u1 hu1ne] at hlast
        rw [Option.some_inj.mp hlast] at this
        exact this.symm
      have htsplit : t = g.1.reverse ++ (h, l) :: u1.dropLast.reverse := by
        rw [hsplit]
        conv_lhs => rw [hu1split]
        rw [List.reverse_append]
        simp
      -- facts about the boundary shard and the remaining prefix
      have hmem_hl : (h, l) ∈ t := by
        rw [htsplit]
        exact List.mem_append.mpr (Or.inr (by simp))
      have hrem_mem : ∀ p ∈ g.1.reverse, p ∈ t := by
        intro p hp
        rw [htsplit]
        exact List.mem_append.mpr (Or.inl hp)
      have hkeys_split : shardKeys t =
          shardKeys g.1.reverse ++ h :: shardKeys u1.dropLast.reverse := by
        rw [htsplit]
        simp [shardKeys]
      have hrem_keys_lt_h : ∀ k ∈ shardKeys g.1.reverse, k < h := by
        intro k hk
        have := hinv.keys_sorted
        rw [hkeys_split, List.pairwise_append] at this
        exact this.2.2 k hk h (by simp)
      have hh_le : h ≤ U64MAX := hinv.key_le_max (h, l) hmem_hl
      have hrem_keys_lt_max : ∀ k ∈ (g.1.reverse).map Prod.fst, k < U64MAX := by
        intro k hk
        exact lt_of_lt_of_le (hrem_keys_lt_h k hk) hh_le
      have hpart_sub : g.2.Sublist l := by
        rcases hpart with ⟨hp, _⟩ | ⟨hp, _⟩
        · rw [hp]
          exact List.takeWhile_sublist _
        · rw [hp]
      have hpart_mem : ∀ x ∈ g.2, x ∈ l := fun x hx => List.Sublist.mem hx hpart_sub
      rw [if_neg hpartne]
      rw [putA_append_natLt _ _ _ hrem_keys_lt_max]
      constructor
      · -- keys sorted
        rw [shardKeys_append]
        rw [List.pairwise_append]
        refine ⟨?_, by simp [shardKeys], ?_⟩
        · have := hinv.keys_sorted
          rw [hkeys_split, List.pairwise_append] at this
          exact this.1
        · intro a ha bkey hb
          simp only [shardKeys, List.map_singleton, List.mem_singleton] at hb
          subst hb
          exact hrem_keys_lt_max a ha
      · -- blocks sorted
        rw [shardBlocks_append]
        have hsingle : shardBlocks [(U64MAX, g.2)] = g.2 := by
          simp [shardBlocks]
        rw [hsingle]
        have hblocks_split : shardBlocks t =
            shardBlocks g.1.reverse ++ (l ++ shardBlocks u1.dropLast.reverse) := by
          rw [htsplit]
          simp [shardBlocks]
        have hsub : (shardBlocks g.1.reverse ++ g.2).Sublist (shardBlocks t) := by
          rw [hblocks_split]
          refine List.Sublist.append_left ?_ _
          exact List.Sublist.trans hpart_sub (List.sublist_append_left l _)
        exact List.Pairwise.sublist hsub hinv.blocks_sorted
      · -- shards non-empty
        intro p hp
        rcases List.mem_append.mp hp with hp | hp
        · exact hinv.shard_nonempty p (hrem_mem p hp)
        · simp only [List.mem_singleton] at hp
          subst hp
          exact hpartne
      · -- blocks ≤ key
        intro p hp x hx
        rcases List.mem_append.mp hp with hp | hp
        · exact hinv.blocks_le_key p (hrem_mem p hp) x hx
        · simp only [List.mem_singleton] at hp
          subst hp
          exact le_trans (hinv.blocks_le_key (h, l) hmem_hl x (hpart_mem x hx)) hh_le
      · -- keys ≤ u64::MAX
        intro p hp
        rcases List.mem_append.mp hp with hp | hp
        · exact hinv.key_le_max p (hrem_mem p hp)
        · simp only [List.mem_singleton] at hp
          subst hp
          exact le_refl _
      · -- closed shards
        intro p hp hpne
        rcases List.mem_append.mp hp with hp | hp
        · exact hinv.full_closed p (hrem_mem p hp) hpne
        · simp only [List.mem_singleton] at hp
          subst hp
          exact absurd rfl hpne
      · -- open shard last
        right
        exact ⟨g.1.reverse, g.2, rfl⟩

/-- One call affecting one logical history key: the per-address loop body of
`insert_account_history_index` / `insert_storage_history_index`, or of
`unwind_account_history_indices` / `unwind_storage_history_indices` (where
the argument is the lowest unwound block of the key). -/
inductive HistoryOp : Type
  | insertIdx (indices : List Nat) : HistoryOp
  | unwindIdx (b : Nat) : HistoryOp

def applyHistoryOp (t : ShardTable) : HistoryOp → ShardTable
  | .insertIdx idx => insert_history_index t idx
  | .unwindIdx b => unwind_history_index t b

/-- The write-path precondition of an append batch: the per-key index lists
built from the changesets are non-empty, hold strictly ascending distinct
block numbers (`u64` values), all strictly above every block already indexed
for the key.  An unwind has no precondition. -/
def ValidHistoryOp (t : ShardTable) : HistoryOp → Prop
  | .insertIdx idx => idx ≠ [] ∧ idx.Pairwise (· < ·) ∧
      (∀ x ∈ shardBlocks t, ∀ y ∈ idx, x < y) ∧ (∀ y ∈ idx, y ≤ U64MAX)
  | .unwindIdx _ => True

def applyHistoryOps (t : ShardTable) (ops : List HistoryOp) : ShardTable :=
  ops.foldl applyHistoryOp t

def ValidHistoryOps : ShardTable → List HistoryOp → Prop
  | _, [] => True
  | t, op :: ops => ValidHistoryOp t op ∧ ValidHistoryOps (applyHistoryOp t op) ops

theorem shardInv_applyHistoryOps (ops : List HistoryOp) :
    ∀ (t : ShardTable), ShardInv t → ValidHistoryOps t ops →
      ShardInv (applyHistoryOps t ops) := by
  induction ops with
  | nil => exact fun t h _ => h
  | cons op ops ih =>
    intro t hinv hvalid
    have hstep : ShardInv (applyHistoryOp t op) := by
      cases op with
      | insertIdx idx =>
        obtain ⟨h1, h2, h3, h4⟩ := hvalid.1
        exact insert_history_index_preserves t idx hinv h1 h2 h3 h4
      | unwindIdx b => exact unwind_history_index_preserves t b hinv
    exact ih (applyHistoryOp t op) hstep hvalid.2

/-- **C4**: Shard-packing invariant.  Both `AccountHistory` and
`StorageHistory` are updated by `insert_account_history_index` /
`insert_storage_history_index` and `unwind_account_history_indices` /
`unwind_storage_history_indices` one logical key at a time, through the
per-key bodies `insert_history_index` / `unwind_history_index`; the index
lists appended for a key are the (distinct, strictly ascending) block numbers
from the changesets, all above the blocks already indexed.  After any valid
sequence of such calls starting from an empty key: every stored shard list is
strictly increasing and non-empty, its last element is ≤ the key's
`highest_block_number`, every shard not keyed `u64::MAX` has length exactly
`NUM_OF_INDICES_IN_SHARD`, and as long as the key has any entry it has
exactly one shard with `highest_block_number = u64::MAX`. -/
theorem shard_packing_invariant_C4 (ops : List HistoryOp)
    (hvalid : ValidHistoryOps [] ops) :
    (∀ p ∈ applyHistoryOps [] ops,
      p.2.Pairwise (· < ·) ∧ p.2 ≠ [] ∧ p.2.getLastD 0 ≤ p.1 ∧
      (p.1 ≠ U64MAX → p.2.length = NUM_OF_INDICES_IN_SHARD)) ∧
    (applyHistoryOps [] ops ≠ [] →
      ∃! p : Nat × List Nat, p ∈ applyHistoryOps [] ops ∧ p.1 = U64MAX) := by
  have hinv := shardInv_applyHistoryOps ops [] shardInv_nil hvalid
  set t := applyHistoryOps [] ops with ht
  constructor
  · intro p hp
    refine ⟨?_, hinv.shard_nonempty p hp, ?_, fun h => (hinv.full_closed p hp h).2⟩
    · have hsub : p.2.Sublist (shardBlocks t) :=
        List.sublist_flatten_of_mem (List.mem_map.mpr ⟨p, hp, rfl⟩)
      exact List.Pairwise.sublist hsub hinv.blocks_sorted
    · exact hinv.blocks_le_key p hp _
        (getLastD_mem p.2 0 (hinv.shard_nonempty p hp))
  · intro htne
    rcases hinv.open_is_last with h | ⟨t0, l0, hsplit⟩
    · exact absurd h htne
    · have hkeys0max : ∀ k ∈ shardKeys t0, k < U64MAX := by
        intro k hk
        have := hinv.keys_sorted
        rw [hsplit] at this
        rw [shardKeys_append] at this
        rw [List.pairwise_append] at this
        exact this.2.2 k hk U64MAX (by simp [shardKeys])
      refine ⟨(U64MAX, l0), ⟨by rw [hsplit]; simp, rfl⟩, ?_⟩
      rintro ⟨k, lk⟩ ⟨hmem, hkey⟩
      simp only at hkey
      subst hkey
      rw [hsplit] at hmem
      rcases List.mem_append.mp hmem with hmem | hmem
      · have : U64MAX ∈ shardKeys t0 := List.mem_map.mpr ⟨_, hmem, rfl⟩
        exact absurd (hkeys0max _ this) (lt_irrefl _)
      · simpa using hmem

/-- Witness for C4 at a concrete operation sequence: append blocks `[1, 2]`
to an empty key, then unwind to block 1. -/
theorem shard_packing_invariant_C4_witness :
    ValidHistoryOps [] [HistoryOp.insertIdx [1, 2], HistoryOp.unwindIdx 2] ∧
    ((∀ p ∈ applyHistoryOps [] [HistoryOp.insertIdx [1, 2], HistoryOp.unwindIdx 2],
      p.2.Pairwise (· < ·) ∧ p.2 ≠ [] ∧ p.2.getLastD 0 ≤ p.1 ∧
      (p.1 ≠ U64MAX → p.2.length = NUM_OF_INDICES_IN_SHARD)) ∧
    (applyHistoryOps [] [HistoryOp.insertIdx [1, 2], HistoryOp.unwindIdx 2] ≠ [] →
      ∃! p : Nat × List Nat,
        p ∈ applyHistoryOps [] [HistoryOp.insertIdx [1, 2], HistoryOp.unwindIdx 2] ∧
        p.1 = U64MAX)) := by
  have hvalid : ValidHistoryOps [] [HistoryOp.insertIdx [1, 2], HistoryOp.unwindIdx 2] := by
    refine ⟨⟨by simp, ?_, ?_, ?_⟩, trivial, trivial⟩
    · exact List.Pairwise.cons (by simp) (List.Pairwise.cons (by simp) List.Pairwise.nil)
    · intro x hx
      simp [shardBlocks] at hx
    · intro y hy
      have hU : (2 : Nat) ≤ U64MAX := by
        rw [show U64MAX = 2 ^ 64 - 1 from rfl]
        norm_num
      rcases List.mem_cons.mp hy with h | h
      · omega
      · simp only [List.mem_singleton] at h
        omega
  exact ⟨hvalid, shard_packing_invariant_C4 _ hvalid⟩

/-- `reth_primitives::Account` (nonce, balance, bytecode hash). -/
structure AccountM : Type where
  nonce : Nat
  balance : Nat
  bytecodeHash : Option Nat
deriving DecidableEq

/-- The fields of `Header` used by this subsystem (`state_root` for the unwind
verification, `timestamp` for the Shanghai check). -/
structure HeaderM : Type where
  state_root : Nat
  timestamp : Nat
deriving DecidableEq

/-- `StoredBlockBodyIndices`: the block body slice into the global
transaction sequence. -/
structure StoredBlockBodyIndicesM : Type where
  first_tx_num : Nat
  tx_count : Nat
deriving DecidableEq

/-- Modelled from the spec: `StoredBlockBodyIndices::last_tx_num` (defined in
`reth_db::models`, not in this snapshot) is the number of the body's last
transaction, `first_tx_num + tx_count - 1`. -/
def StoredBlockBodyIndicesM.last_tx_num (b : StoredBlockBodyIndicesM) : Nat :=
  b.first_tx_num + b.tx_count - 1

/-- `TransactionSignedNoHash`: what the `Transactions` table stores; the
signature and the transaction payload are opaque to this subsystem. -/
structure TransactionSignedNoHashM : Type where
  signature : Nat
  transaction : Nat
deriving DecidableEq

/-- `TransactionSigned`: a transaction together with its `hash` field. -/
structure TransactionSignedM : Type where
  hash : Nat
  signature : Nat
  transaction : Nat
deriving DecidableEq

/-- Modelled from the spec: the chain-spec queries used by the provider
(`reth_primitives::ChainSpec` is not in this snapshot).  A post-merge chain
records its final Paris block and the terminal total difficulty; a
post-Shanghai chain records the Shanghai activation timestamp. -/
structure ChainSpecM : Type where
  parisBlockAndFinalDifficulty : Option (Nat × Nat)
  shanghaiTime : Option Nat

/-- Modelled from the spec: `ChainSpec::final_paris_difficulty(number)`
returns the terminal total difficulty for every block strictly beyond the
final Paris block ("the post-merge terminal difficulty for all blocks beyond
the Paris block"). -/
def ChainSpecM.final_paris_difficulty (cs : ChainSpecM) (number : Nat) : Option Nat :=
  cs.parisBlockAndFinalDifficulty.bind
    (fun p => if p.1 < number then some p.2 else none)

/-- Modelled from the spec: `ChainSpec::is_shanghai_activated_at_timestamp`
(a timestamp-activated fork is active at every timestamp at or after its
activation time). -/
def ChainSpecM.is_shanghai_activated_at_timestamp (cs : ChainSpecM) (timestamp : Nat) : Bool :=
  match cs.shanghaiTime with
  | some t => t ≤ timestamp
  | none => false

/-- The error outcomes of the embedded provider operations.
`panicked` models a Rust `panic!` / `unreachable!` / failed `expect`, which is
not a returned error value.  `junkChangeset` is the error kind the spec (§7)
prescribes for a corrupt changeset row; the source never constructs it. -/
inductive TransactionErrorM : Type
  | headerNotFound (number : Nat) : TransactionErrorM
  | blockBodyIndicesNotFound (number : Nat) : TransactionErrorM
  | unwindStateRootMismatch (got expected block_number block_hash : Nat) : TransactionErrorM
  | junkChangeset : TransactionErrorM
  | mismatchOfTransactionAndSenderId (tx_id : Nat) : TransactionErrorM
  | blockBodyTransactionCount : TransactionErrorM
  | panicked (msg : String) : TransactionErrorM
deriving DecidableEq

/-- `PostState`: per-block delta reconstructed by
`get_take_block_execution_result_range`.  Account changes are recorded as
`(block, address, prior?, new?)` (create, destroy and change use the three
`Option` patterns `create_account` / `destroy_account` / `change_account`
produce); storage changes as `(block, address, [(key, prior, new)])`. -/
structure PostStateM : Type where
  accountChanges : List (Nat × Nat × Option AccountM × Option AccountM)
  storageChanges : List (Nat × Nat × List (Nat × Nat × Nat))
  receiptList : List (Nat × Nat)
deriving DecidableEq

def PostStateM.empty : PostStateM := ⟨[], [], []⟩

def PostStateM.create_account (ps : PostStateM) (block address : Nat)
    (account : AccountM) : PostStateM :=
  { ps with accountChanges := ps.accountChanges ++ [(block, address, none, some account)] }

def PostStateM.destroy_account (ps : PostStateM) (block address : Nat)
    (old : AccountM) : PostStateM :=
  { ps with accountChanges := ps.accountChanges ++ [(block, address, some old, none)] }

def PostStateM.change_account (ps : PostStateM) (block address : Nat)
    (old next : AccountM) : PostStateM :=
  { ps with accountChanges := ps.accountChanges ++ [(block, address, some old, some next)] }

def PostStateM.change_storage (ps : PostStateM) (block address : Nat)
    (changeset : List (Nat × Nat × Nat)) : PostStateM :=
  { ps with storageChanges := ps.storageChanges ++ [(block, address, changeset)] }

def PostStateM.add_receipt (ps : PostStateM) (block receipt : Nat) : PostStateM :=
  { ps with receiptList := ps.receiptList ++ [(block, receipt)] }

/-- The transactional KV store of the provider, one field per table used by
the embedded operations.  Integer-keyed tables are functions
`key → Option value`; the dup-sorted changeset tables, which the code only
walks in key order, are key-sorted entry lists
(`AccountChangeSet`: `(block, address, prior_account?)`;
`StorageChangeSet`: `((block, address), storage_key, prior_value)`);
the history tables are per-logical-key shard tables.  Hashes (`H256`),
addresses and `U256` values are `Nat`; a `U256` storage value of zero stored
in a changeset is the literal `0`, while a zero value in a value table is
represented by row absence. -/
structure DB : Type where
  headers : Nat → Option HeaderM
  canonicalHeaders : Nat → Option Nat
  headerNumbers : Nat → Option Nat
  headerTD : Nat → Option Nat
  blockBodyIndices : Nat → Option StoredBlockBodyIndicesM
  transactions : Nat → Option TransactionSignedNoHashM
  txSenders : Nat → Option Nat
  txHashNumber : Nat → Option Nat
  transactionBlock : Nat → Option Nat
  receipts : Nat → Option Nat
  blockOmmers : Nat → Option (List Nat)
  blockWithdrawals : Nat → Option (List Nat)
  plainAccountState : Nat → Option AccountM
  plainStorageState : Nat → Nat → Option Nat
  hashedAccounts : Nat → Option AccountM
  hashedStorage : Nat → Nat → Option Nat
  accountChangeSets : List (Nat × Nat × Option AccountM)
  storageChangeSets : List ((Nat × Nat) × Nat × Nat)
  accountHistory : Nat → ShardTable
  storageHistory : Nat → Nat → ShardTable
  syncStage : List (Nat × Nat)

/-- `walk_range(lo..=hi)` over `AccountChangeSet`. -/
def accountCsInRange (db : DB) (lo hi : Nat) : List (Nat × Nat × Option AccountM) :=
  db.accountChangeSets.filter (fun e => lo ≤ e.1 && e.1 ≤ hi)

/-- `walk_range(BlockNumberAddress::range(lo..=hi))` over `StorageChangeSet`. -/
def storageCsInRange (db : DB) (lo hi : Nat) : List ((Nat × Nat) × Nat × Nat) :=
  db.storageChangeSets.filter (fun e => lo ≤ e.1.1 && e.1.1 ≤ hi)

/-- `insert_account_history_index`: for each address of the batch, pop the
open shard, append the new indices and re-shard (per-key body
`insert_history_index`). -/
def insert_account_history_index (db : DB)
    (account_transitions : List (Nat × List Nat)) : DB :=
  { db with accountHistory :=
      (account_transitions.foldl
        (fun f p => updFun f p.1 (insert_history_index (f p.1) p.2))
        db.accountHistory) }

/-- `insert_storage_history_index`: the storage analogue, keyed by
`(address, storage_key)`. -/
def insert_storage_history_index (db : DB)
    (storage_transitions : List ((Nat × Nat) × List Nat)) : DB :=
  { db with storageHistory :=
      (storage_transitions.foldl
        (fun f p => updFun2 f p.1.1 p.1.2 (insert_history_index (f p.1.1 p.1.2) p.2))
        db.storageHistory) }

/-- `unwind_account_history_indices`: walk the account changesets of the
range, fold them (newest first) into `address → lowest changed block`, then
unwind each address's shards at that boundary and re-insert the surviving
part under `u64::MAX` (per-key body `unwind_history_index`). -/
def unwind_account_history_indices (db : DB) (lo hi : Nat) : DB :=
  let account_changeset := accountCsInRange db lo hi
  let last_indices := account_changeset.reverse.foldl
      (fun m e => putA natLt m e.2.1 e.1) []
  { db with accountHistory :=
      (last_indices.foldl
        (fun f p => updFun f p.1 (unwind_history_index (f p.1) p.2))
        db.accountHistory) }

/-- `unwind_storage_history_indices`: the storage analogue, keyed by
`(address, storage_key)`. -/
def unwind_storage_history_indices (db : DB) (lo hi : Nat) : DB :=
  let storage_changesets := storageCsInRange db lo hi
  let last_indices := storage_changesets.reverse.foldl
      (fun m e => putA pairLt m (e.1.2, e.2.1) e.1.1) []
  { db with storageHistory :=
      (last_indices.foldl
        (fun f p => updFun2 f p.1.1 p.1.2 (unwind_history_index (f p.1.1 p.1.2) p.2))
        db.storageHistory) }

/-- `unwind_account_hashing`: fold the range's account changesets (newest
first) into `address → oldest prior account`, keccak the addresses
(`kec` models `keccak256`), and upsert/delete the `HashedAccount` rows. -/
def unwind_account_hashing (kec : Nat → Nat) (db : DB) (lo hi : Nat) : DB :=
  let changesets := accountCsInRange db lo hi
  let accounts := changesets.reverse.foldl (fun m e => putA natLt m e.2.1 e.2.2) []
  let hashed := accounts.foldl (fun m p => putA natLt m (kec p.1) p.2) []
  { db with hashedAccounts :=
      (hashed.foldl (fun f p => updFun f p.1 p.2) db.hashedAccounts) }

/-- `unwind_storage_hashing`: fold the range's storage changesets (newest
first) into `(address, key) → oldest prior value`, keccak both components,
then delete each `HashedStorage` row and re-insert it only for a non-zero
value (a zero value is represented by absence). -/
def unwind_storage_hashing (kec : Nat → Nat) (db : DB) (lo hi : Nat) : DB :=
  let changesets := storageCsInRange db lo hi
  let storages := changesets.reverse.foldl
      (fun m e => putA pairLt m (e.1.2, e.2.1) e.2.2) []
  let hashed := storages.foldl
      (fun m p => putA pairLt m (kec p.1.1, kec p.1.2) p.2) []
  { db with hashedStorage :=
      (hashed.foldl
        (fun f p => updFun2 f p.1.1 p.1.2 (if p.2 = 0 then none else some p.2))
        db.hashedStorage) }

/-- `update_pipeline_stages`: set every existing stage checkpoint to the given
block number (the checkpoint is modelled by its block number alone). -/
def update_pipeline_stages (db : DB) (block_number : Nat) : DB :=
  { db with syncStage := db.syncStage.map (fun p => (p.1, block_number)) }

/-- `local_plain_state`: `address → (new_account??, storage key → value)`;
the outer `Option` distinguishes an unknown account slot from a known-removed
one (`Option<Option<Account>>` in the source). -/
abbrev LocalStateM : Type := List (Nat × (Option (Option AccountM) × List (Nat × Nat)))

/-- `block_states`: per-block `PostState` under reconstruction. -/
abbrev BlockStatesM : Type := List (Nat × PostStateM)

/-- `block_states.entry(n).or_default()` followed by a mutation. -/
def modifyBS (bs : BlockStatesM) (n : Nat) (f : PostStateM → PostStateM) : BlockStatesM :=
  putA natLt bs n (f ((getA bs n).getD PostStateM.empty))

/-- The account-changeset loop of `get_take_block_execution_result_range`
(source lines 607–635), over the range's rows in reverse order.  A changeset
row whose prior equals the reconstructed new value, or that transitions from
no account to no account, hits an `unreachable!` — a panic, not an error
return. -/
def accountChangesLoop (plain : Nat → Option AccountM) :
    List (Nat × Nat × Option AccountM) → LocalStateM → BlockStatesM →
    Except TransactionErrorM (LocalStateM × BlockStatesM)
  | [], lps, bs => .ok (lps, bs)
  | (block_number, address, old_info) :: rest, lps, bs =>
    let step : Except TransactionErrorM (Option AccountM × LocalStateM) :=
      match getA lps address with
      | none => .ok (plain address, putA natLt lps address (some old_info, []))
      | some (slot, stor) =>
        match slot with
        | some new_account => .ok (new_account, putA natLt lps address (some old_info, stor))
        | none => .error (.panicked
            "As we are stacking account first, account would always be Some")
    match step with
    | .error e => .error e
    | .ok (new_info, lps1) =>
      match old_info, new_info with
      | some old, some next =>
        if next ≠ old then
          accountChangesLoop plain rest lps1
            (modifyBS bs block_number
              (fun ps => ps.change_account block_number address old next))
        else .error (.panicked
          "Junk data in database: an account changeset did not represent any change")
      | none, some account =>
        accountChangesLoop plain rest lps1
          (modifyBS bs block_number
            (fun ps => ps.create_account block_number address account))
      | some old, none =>
        accountChangesLoop plain rest lps1
          (modifyBS bs block_number
            (fun ps => ps.destroy_account block_number address old))
      | none, none => .error (.panicked
          "Junk data in database: an account changeset transitioned from no account to no account")

/-- The storage-changeset loop of `get_take_block_execution_result_range`
(source lines 637–659), over the range's rows in reverse order.  An absent
plain-state row reads as value `0` (`unwrap_or_default`). -/
def storageChangesLoop (plainStor : Nat → Nat → Option Nat) :
    List ((Nat × Nat) × Nat × Nat) → LocalStateM →
    List ((Nat × Nat) × List (Nat × Nat × Nat)) →
    LocalStateM × List ((Nat × Nat) × List (Nat × Nat × Nat))
  | [], lps, storage_changes => (lps, storage_changes)
  | ((block_number, address), key, prior) :: rest, lps, storage_changes =>
    let entry := (getA lps address).getD (none, [])
    let new_storage :=
      match getA entry.2 key with
      | none => (plainStor address key).getD 0
      | some current => current
    let lps1 := putA natLt lps address (entry.1, putA natLt entry.2 key prior)
    let inner := (getA storage_changes (block_number, address)).getD []
    let storage_changes1 := putA pairLt storage_changes (block_number, address)
        (putA natLt inner key (prior, new_storage))
    storageChangesLoop plainStor rest lps1 storage_changes1

/-- Emit the collected `storage_changes` into the per-block `PostState`s
(source lines 661–669). -/
def applyStorageChanges (bs : BlockStatesM)
    (storage_changes : List ((Nat × Nat) × List (Nat × Nat × Nat))) : BlockStatesM :=
  storage_changes.foldl
    (fun bs e => modifyBS bs e.1.1 (fun ps => ps.change_storage e.1.1 e.1.2 e.2)) bs

/-- The `TAKE` write-back of `local_plain_state` (source lines 671–704):
restore the prior account (upsert, or delete when the prior is absent) and,
for each storage slot, delete the row and re-insert it only for a non-zero
prior value. -/
def writeBackLocalState (lps : LocalStateM) (plainAcc : Nat → Option AccountM)
    (plainStor : Nat → Nat → Option Nat) :
    (Nat → Option AccountM) × (Nat → Nat → Option Nat) :=
  lps.foldl
    (fun pr e =>
      let pa := match e.2.1 with
        | some account => updFun pr.1 e.1 account
        | none => pr.1
      let ps := e.2.2.foldl
        (fun g kv => updFun2 g e.1 kv.1 (if kv.2 = 0 then none else some kv.2)) pr.2
      (pa, ps))
    (plainAcc, plainStor)

/-- Pair the collected receipts back to their blocks by consuming the receipt
iterator `tx_count` entries per block (source lines 706–719). -/
def attachReceipts : List (Nat × StoredBlockBodyIndicesM) → List (Nat × Nat) →
    BlockStatesM → BlockStatesM
  | [], _, bs => bs
  | (n, body) :: rest, rs, bs =>
    let bs1 := (rs.take body.tx_count).foldl
        (fun bs r => modifyBS bs n (fun ps => ps.add_receipt n r.2)) bs
    attachReceipts rest (rs.drop body.tx_count) bs1

/-- `get_take_block_execution_result_range::<TAKE>`: reconstruct the
`PostState`s of `[lo, hi]` from the changesets and the plain state; with
`TAKE`, also delete the consumed receipts and changesets and restore the
plain state to its pre-range image.  Returns the database as mutated up to
the point of return (the surrounding transaction is rolled back by the caller
on error). -/
def get_take_block_execution_result_range (TAKE : Bool) (db : DB) (lo hi : Nat) :
    Except TransactionErrorM (DB × List PostStateM) :=
  if hi < lo then .ok (db, [])
  else
    let block_bodies := rangeEntries db.blockBodyIndices lo hi
    match block_bodies.head?, block_bodies.getLast? with
    | some firstB, some lastB =>
      let from_transaction_num := firstB.2.first_tx_num
      let to_transaction_num := lastB.2.last_tx_num
      let receiptRows := rangeEntries db.receipts from_transaction_num to_transaction_num
      let storage_changeset := storageCsInRange db lo hi
      let account_changeset := accountCsInRange db lo hi
      let db1 :=
        if TAKE then
          { db with
            receipts := deleteRange db.receipts from_transaction_num to_transaction_num,
            storageChangeSets :=
              (db.storageChangeSets.filter (fun e => !(lo ≤ e.1.1 && e.1.1 ≤ hi))),
            accountChangeSets :=
              (db.accountChangeSets.filter (fun e => !(lo ≤ e.1 && e.1 ≤ hi))) }
        else db
      let bs0 : BlockStatesM := block_bodies.map (fun p => (p.1, PostStateM.empty))
      match accountChangesLoop db.plainAccountState account_changeset.reverse [] bs0 with
      | .error e => .error e
      | .ok (lps1, bs1) =>
        let r2 := storageChangesLoop db.plainStorageState storage_changeset.reverse lps1 []
        let bs2 := applyStorageChanges bs1 r2.2
        let db2 :=
          if TAKE then
            let wb := writeBackLocalState r2.1 db1.plainAccountState db1.plainStorageState
            { db1 with plainAccountState := wb.1, plainStorageState := wb.2 }
          else db1
        let bs3 := attachReceipts block_bodies receiptRows bs2
        .ok (db2, bs3.map Prod.snd)
    | _, _ => .error (.panicked "already checked if there are blocks")

/-- Consume `tx_count` entries from the transaction and sender iterators for
one block (the inner loop of `get_take_block_transaction_range`), checking
that the two streams stay aligned on transaction numbers. -/
def takeTxSenders :
    Nat → List (Nat × TransactionSignedNoHashM) → List (Nat × Nat) →
    Except TransactionErrorM (List (TransactionSignedNoHashM × Nat) ×
      List (Nat × TransactionSignedNoHashM) × List (Nat × Nat))
  | 0, txs, snds => .ok ([], txs, snds)
  | n + 1, txs, snds =>
    match txs, snds with
    | (tx_id, tx) :: txs1, (sender_tx_id, sender) :: snds1 =>
      if tx_id ≠ sender_tx_id then .error (.mismatchOfTransactionAndSenderId tx_id)
      else
        match takeTxSenders n txs1 snds1 with
        | .error e => .error e
        | .ok (acc, txs2, snds2) => .ok ((tx, sender) :: acc, txs2, snds2)
    | (tx_id, _) :: _, [] => .error (.mismatchOfTransactionAndSenderId tx_id)
    | [], (tx_id, _) :: _ => .error (.mismatchOfTransactionAndSenderId tx_id)
    | [], [] => .error .blockBodyTransactionCount

/-- Merge the flat transaction and sender streams back into per-block lists
(the outer loop of `get_take_block_transaction_range`). -/
def mergeBlockTx :
    List (Nat × StoredBlockBodyIndicesM) → List (Nat × TransactionSignedNoHashM) →
    List (Nat × Nat) →
    Except TransactionErrorM (List (Nat × List (TransactionSignedNoHashM × Nat)))
  | [], _, _ => .ok []
  | (n, body) :: rest, txs, snds =>
    match takeTxSenders body.tx_count txs snds with
    | .error e => .error e
    | .ok (one_block_tx, txs1, snds1) =>
      match mergeBlockTx rest txs1 snds1 with
      | .error e => .error e
      | .ok block_tx => .ok ((n, one_block_tx) :: block_tx)

/-- `get_take_block_transaction_range::<TAKE>`: collect (and with `TAKE`
delete) the transactions and senders of the range's tx numbers, delete the
`TxHashNumber` and `TransactionBlock` rows, and group transactions per block.
`txHashFn` models the transaction-hash computation of the
`TransactionSignedNoHash → TransactionSigned` conversion. -/
def get_take_block_transaction_range (TAKE : Bool)
    (txHashFn : TransactionSignedNoHashM → Nat) (db : DB) (lo hi : Nat) :
    Except TransactionErrorM (DB × List (Nat × List (TransactionSignedNoHashM × Nat))) :=
  let block_bodies := rangeEntries db.blockBodyIndices lo hi
  if block_bodies.isEmpty then .ok (db, [])
  else
    match block_bodies.head?, block_bodies.getLast? with
    | some firstB, some lastB =>
      let first_transaction := firstB.2.first_tx_num
      let last_transaction := lastB.2.last_tx_num
      if last_transaction < first_transaction then
        .ok (db, block_bodies.map (fun p => (p.1, [])))
      else
        let transactions := rangeEntries db.transactions first_transaction last_transaction
        let senders := rangeEntries db.txSenders first_transaction last_transaction
        let db1 :=
          if TAKE then
            { db with
              transactions := deleteRange db.transactions first_transaction last_transaction,
              txSenders := deleteRange db.txSenders first_transaction last_transaction }
          else db
        let db2 :=
          if TAKE then
            { db1 with txHashNumber :=
                (transactions.foldl (fun f p => updFun f (txHashFn p.2) none)
                  db1.txHashNumber) }
          else db1
        let db3 :=
          if TAKE ∧ transactions ≠ [] then
            { db2 with transactionBlock :=
                (deleteRange db2.transactionBlock
                  ((transactions.head?.map Prod.fst).getD 0)
                  ((transactions.getLast?.map Prod.fst).getD 0)) }
          else db2
        match mergeBlockTx block_bodies transactions senders with
        | .error e => .error e
        | .ok block_tx => .ok (db3, block_tx)
    | _, _ => .ok (db, [])

/-- A sealed block with its recovered senders, as reassembled by
`get_take_block_range`. -/
structure SealedBlockWithSendersM : Type where
  number : Nat
  header : HeaderM
  hash : Nat
  body : List TransactionSignedM
  ommers : List Nat
  withdrawals : Option (List Nat)
  senders : List Nat
deriving DecidableEq

/-- `get_take_block_range::<TAKE>`: collect (and with `TAKE` delete) headers,
canonical hashes, ommers, withdrawals, transactions and senders of the range,
then zip everything back into sealed blocks.  The source merges the sorted
ommers/withdrawals iterators by peeking at their next block number; over
tables with strictly ascending unique keys that is a per-block lookup, which
is how it is modelled.  Withdrawals are attached only for Shanghai-active
timestamps (`Some(vec![])` when the row is absent), otherwise `None`. -/
def get_take_block_range (TAKE : Bool) (spec : ChainSpecM)
    (txHashFn : TransactionSignedNoHashM → Nat) (db : DB) (lo hi : Nat) :
    Except TransactionErrorM (DB × List SealedBlockWithSendersM) :=
  let block_headers := rangeEntries db.headers lo hi
  if block_headers.isEmpty then .ok (db, [])
  else
    let block_header_hashes := rangeEntries db.canonicalHeaders lo hi
    let block_ommers := rangeEntries db.blockOmmers lo hi
    let block_withdrawals := rangeEntries db.blockWithdrawals lo hi
    let db1 :=
      if TAKE then
        { db with
          headers := deleteRange db.headers lo hi,
          canonicalHeaders := deleteRange db.canonicalHeaders lo hi,
          blockOmmers := deleteRange db.blockOmmers lo hi,
          blockWithdrawals := deleteRange db.blockWithdrawals lo hi }
      else db
    match get_take_block_transaction_range TAKE txHashFn db1 lo hi with
    | .error e => .error e
    | .ok (db2, block_tx) =>
      let db3 :=
        if TAKE then
          { db2 with
            headerTD := deleteRange db2.headerTD lo hi,
            headerNumbers :=
              (block_header_hashes.foldl (fun f p => updFun f p.2 none)
                db2.headerNumbers) }
        else db2
      let blocks :=
        (block_headers.zip (block_header_hashes.zip block_tx)).map (fun z =>
          let main_block_number := z.1.1
          let ommers := (getA block_ommers main_block_number).getD []
          let shanghai_is_active :=
            spec.is_shanghai_activated_at_timestamp z.1.2.timestamp
          let withdrawals :=
            if shanghai_is_active then some ((getA block_withdrawals main_block_number).getD [])
            else none
          { number := main_block_number
            header := z.1.2
            hash := z.2.1.2
            body := z.2.2.2.map (fun q =>
              { hash := txHashFn q.1, signature := q.1.signature,
                transaction := q.1.transaction })
            ommers := ommers
            withdrawals := withdrawals
            senders := z.2.2.2.map Prod.snd })
      .ok (db3, blocks)

/-- Source lines 732–735: the four unwind steps run before the state-root
verification of a taking `get_take_block_and_execution_range`. -/
def historyAndHashingUnwound (kec : Nat → Nat) (db : DB) (lo hi : Nat) : DB :=
  unwind_storage_history_indices
    (unwind_storage_hashing kec
      (unwind_account_history_indices
        (unwind_account_hashing kec db lo hi) lo hi) lo hi) lo hi

/-- `get_take_block_and_execution_range::<TAKE>`: with `TAKE`, first unwind
hashing and history indices, recompute the incremental state root backward
over the range (`incRoot` models the external trie engine,
`StateRoot::incremental_root_with_updates`; the flushed trie tables are not
modelled) and compare it against `Headers[lo−1].state_root`, failing with
`UnwindStateRootMismatch { got, expected, block_number, block_hash }` on any
difference; only then take the blocks, the execution results and the block
body indices, and move every pipeline checkpoint to `lo−1`.  The returned
database is the state as mutated up to the point of return. -/
def get_take_block_and_execution_range (TAKE : Bool) (spec : ChainSpecM)
    (kec : Nat → Nat) (txHashFn : TransactionSignedNoHashM → Nat)
    (incRoot : DB → Nat → Nat → Nat) (db : DB) (lo hi : Nat) :
    DB × Except TransactionErrorM (List (SealedBlockWithSendersM × PostStateM)) :=
  let pre :=
    if TAKE then
      let db4 := historyAndHashingUnwound kec db lo hi
      let new_state_root := incRoot db4 lo hi
      let parent_number := lo - 1
      match db4.headers parent_number with
      | none => (db4, some (TransactionErrorM.headerNotFound parent_number))
      | some parent_header =>
        if new_state_root ≠ parent_header.state_root then
          match db4.canonicalHeaders parent_number with
          | none => (db4, some (TransactionErrorM.headerNotFound parent_number))
          | some parent_hash =>
            (db4, some (TransactionErrorM.unwindStateRootMismatch new_state_root
              parent_header.state_root parent_number parent_hash))
        else (db4, none)
    else (db, none)
  match pre.2 with
  | some e => (pre.1, .error e)
  | none =>
    match get_take_block_range TAKE spec txHashFn pre.1 lo hi with
    | .error e => (pre.1, .error e)
    | .ok (db5, blocks) =>
      let unwind_to := blocks.head?.map (fun b => b.number - 1)
      match get_take_block_execution_result_range TAKE db5 lo hi with
      | .error e => (db5, .error e)
      | .ok (db6, execution_res) =>
        let db7 :=
          if TAKE then
            { db6 with blockBodyIndices := deleteRange db6.blockBodyIndices lo hi }
          else db6
        let db8 :=
          if TAKE then
            match unwind_to with
            | some fork_number => update_pipeline_stages db7 fork_number
            | none => db7
          else db7
        (db8, .ok (blocks.zip execution_res))

/-- `header_td_by_number`: the chain spec short-circuits every block beyond
the final Paris block to the terminal total difficulty; only otherwise is the
`HeaderTD` table read. -/
def header_td_by_number (spec : ChainSpecM) (db : DB) (number : Nat) : Option Nat :=
  match spec.final_paris_difficulty number with
  | some td => some td
  | none => db.headerTD number

/-- `BlockHashOrNumber`. -/
inductive BlockHashOrNumberM : Type
  | hash (h : Nat) : BlockHashOrNumberM
  | number (n : Nat) : BlockHashOrNumberM

/-- Modelled from the spec: `convert_hash_or_number` (a provided method of the
block-number provider, not in this snapshot) resolves a block id — a number
is returned as-is, a hash is looked up in `HeaderNumbers` (block IDs are a
tagged union per spec §9). -/
def convert_hash_or_number (db : DB) : BlockHashOrNumberM → Option Nat
  | .number n => some n
  | .hash h => db.headerNumbers h

/-- `withdrawals_by_block`: when Shanghai is active at the timestamp and the
id resolves, return the stored withdrawals (the empty list when the row is
absent); otherwise `None`. -/
def withdrawals_by_block (spec : ChainSpecM) (db : DB) (id : BlockHashOrNumberM)
    (timestamp : Nat) : Option (List Nat) :=
  if spec.is_shanghai_activated_at_timestamp timestamp then
    match convert_hash_or_number db id with
    | some number => some ((db.blockWithdrawals number).getD [])
    | none => none
  else none

/-- `transactions_by_tx_range`. -/
def transactions_by_tx_range (db : DB) (lo hi : Nat) : List TransactionSignedNoHashM :=
  (rangeEntries db.transactions lo hi).map Prod.snd

/-- `senders_by_tx_range`. -/
def senders_by_tx_range (db : DB) (lo hi : Nat) : List Nat :=
  (rangeEntries db.txSenders lo hi).map Prod.snd

/-- `BlockWithSenders`. -/
structure BlockWithSendersM : Type where
  header : HeaderM
  body : List TransactionSignedM
  ommers : List Nat
  withdrawals : Option (List Nat)
  senders : List Nat
deriving DecidableEq

/-- `block_with_senders`: read the header (error when absent), the ommers,
the withdrawals and the body indices, then rebuild the transactions with the
**default (zero) hash** instead of computing each transaction hash
("The transactions have invalid hashes, since they would need to be
calculated on the spot, and we want fast querying"). -/
def block_with_senders (spec : ChainSpecM) (db : DB) (block_number : Nat) :
    Except TransactionErrorM (Option BlockWithSendersM) :=
  match db.headers block_number with
  | none => .error (.headerNotFound block_number)
  | some header =>
    let ommers := (db.blockOmmers block_number).getD []
    let withdrawals :=
      withdrawals_by_block spec db (.number block_number) header.timestamp
    match db.blockBodyIndices block_number with
    | none => .error (.blockBodyIndicesNotFound block_number)
    | some body =>
      let pair :=
        if body.tx_count = 0 then ([], [])
        else (transactions_by_tx_range db body.first_tx_num body.last_tx_num,
          senders_by_tx_range db body.first_tx_num body.last_tx_num)
      let bodyTx : List TransactionSignedM := pair.1.map (fun tx =>
        { hash := 0, signature := tx.signature, transaction := tx.transaction })
      .ok (some { header := header, body := bodyTx, ommers := ommers,
                  withdrawals := withdrawals, senders := pair.2 })

theorem getLastD_replicate (n : Nat) (a d : Nat) : (List.replicate (n + 1) a).getLastD d = a := by
  induction n generalizing d with
  | zero => rfl
  | succ m ih =>
    rw [List.replicate_succ, List.getLastD_cons]
    exact ih a

theorem headD_replicate (n : Nat) (a d : Nat) : (List.replicate (n + 1) a).headD d = a := by
  rw [List.replicate_succ]
  rfl

/-- A database with every table empty. -/
def emptyDB : DB where
  headers := fun _ => none
  canonicalHeaders := fun _ => none
  headerNumbers := fun _ => none
  headerTD := fun _ => none
  blockBodyIndices := fun _ => none
  transactions := fun _ => none
  txSenders := fun _ => none
  txHashNumber := fun _ => none
  transactionBlock := fun _ => none
  receipts := fun _ => none
  blockOmmers := fun _ => none
  blockWithdrawals := fun _ => none
  plainAccountState := fun _ => none
  plainStorageState := fun _ _ => none
  hashedAccounts := fun _ => none
  hashedStorage := fun _ _ => none
  accountChangeSets := []
  storageChangeSets := []
  accountHistory := fun _ => []
  storageHistory := fun _ _ => []
  syncStage := []

/-- The database of spec scenario S3: address 1 has a full open shard of
`NUM_OF_INDICES_IN_SHARD` copies of block 3, and blocks 4 and 5 (both
touching address 1) have been executed, so their changeset rows exist. -/
def dbS3 : DB :=
  { emptyDB with
    accountHistory := fun a =>
      if a = 1 then [(U64MAX, List.replicate NUM_OF_INDICES_IN_SHARD 3)] else [],
    accountChangeSets := [(4, 1, none), (5, 1, none)] }

theorem insert_full_open_shard :
    insert_history_index [(U64MAX, List.replicate NUM_OF_INDICES_IN_SHARD 3)] [4, 5] =
      [(3, List.replicate NUM_OF_INDICES_IN_SHARD 3), (U64MAX, [4, 5])] := by
  rw [show NUM_OF_INDICES_IN_SHARD = 2000 from rfl]
  have hrep : (List.replicate 2000 3).length = 2000 := by simp
  have hchunks : chunksOf NUM_OF_INDICES_IN_SHARD (List.replicate 2000 3 ++ [4, 5]) =
      [List.replicate 2000 3, [4, 5]] := by
    rw [show NUM_OF_INDICES_IN_SHARD = 2000 from rfl]
    rw [chunksOf_append (by norm_num) hrep]
    rw [chunksOf_eq_single (by norm_num) (by simp) (by simp)]
  have htake : take_last_shard [(U64MAX, List.replicate 2000 3)] =
      ([], List.replicate 2000 3) := by
    simp [take_last_shard, getA, eraseA]
  have hgl : (List.replicate 2000 3).getLastD 0 = 3 := by
    rw [show (2000 : Nat) = 1999 + 1 by norm_num, getLastD_replicate]
  unfold insert_history_index
  rw [htake]
  simp only [hchunks]
  simp [putA, natLt, hgl, U64MAX]

theorem unwind_restores_full_open_shard :
    unwind_history_index
      [(3, List.replicate NUM_OF_INDICES_IN_SHARD 3), (U64MAX, [4, 5])] 4 =
      [(U64MAX, List.replicate NUM_OF_INDICES_IN_SHARD 3)] := by
  rw [show NUM_OF_INDICES_IN_SHARD = 2000 from rfl]
  have hhead : (List.replicate 2000 3).headD 0 = 3 := by
    rw [show (2000 : Nat) = 1999 + 1 by norm_num, headD_replicate]
  have hne : List.replicate 2000 3 ≠ [] := by simp
  unfold unwind_history_index unwind_history_shards
  rw [show getA [(3, List.replicate 2000 3), (U64MAX, [4, 5])] U64MAX = some [4, 5] from by
    norm_num [getA, U64MAX]]
  simp only [List.reverse_cons, List.reverse_nil, List.nil_append, List.cons_append]
  rw [show unwind_history_shards_go 4
      [(U64MAX, [4, 5]), (3, List.replicate 2000 3)] = ([], List.replicate 2000 3) from by
    unfold unwind_history_shards_go
    rw [if_pos (by norm_num)]
    unfold unwind_history_shards_go
    rw [if_neg (by rw [hhead]; norm_num), if_neg (by norm_num)]]
  simp [hne, putA]

/-- **C1**: History-index append followed by unwind round-trips on a full
open shard.  Starting from `AccountHistory[(a, u64::MAX)]` holding
`NUM_OF_INDICES_IN_SHARD` entries of block 3, inserting indices `[4, 5]` for
address `a = 1` yields `AccountHistory[(a, 3)]` equal to the original full
list and `AccountHistory[(a, u64::MAX)] = [4, 5]`; unwinding the history
index over the range `[4, 5]` restores the single shard
`AccountHistory[(a, u64::MAX)]` equal to the original full list. -/
theorem history_append_unwind_roundtrip_C1 :
    (insert_account_history_index dbS3 [(1, [4, 5])]).accountHistory 1 =
      [(3, List.replicate NUM_OF_INDICES_IN_SHARD 3), (U64MAX, [4, 5])] ∧
    (unwind_account_history_indices
        (insert_account_history_index dbS3 [(1, [4, 5])]) 4 5).accountHistory 1 =
      [(U64MAX, List.replicate NUM_OF_INDICES_IN_SHARD 3)] := by
  have hdb : dbS3.accountHistory 1 =
      [(U64MAX, List.replicate NUM_OF_INDICES_IN_SHARD 3)] := by
    simp [dbS3]
  have h1 : (insert_account_history_index dbS3 [(1, [4, 5])]).accountHistory 1 =
      [(3, List.replicate NUM_OF_INDICES_IN_SHARD 3), (U64MAX, [4, 5])] := by
    simp only [insert_account_history_index, List.foldl_cons, List.foldl_nil]
    simp only [updFun, if_pos rfl]
    rw [hdb, insert_full_open_shard]
    simp
  refine ⟨h1, ?_⟩
  have hcs : accountCsInRange (insert_account_history_index dbS3 [(1, [4, 5])]) 4 5 =
      [(4, 1, none), (5, 1, none)] := by
    simp [accountCsInRange, insert_account_history_index, dbS3]
  simp only [unwind_account_history_indices, hcs]
  simp only [List.reverse_cons, List.reverse_nil, List.nil_append, List.cons_append,
    List.foldl_cons, List.foldl_nil]
  rw [show putA natLt (putA natLt [] 1 5) 1 4 = [(1, 4)] from by simp [putA, natLt]]
  simp only [List.foldl_cons, List.foldl_nil]
  simp only [updFun, if_pos rfl]
  rw [h1, unwind_restores_full_open_shard]
  simp

/-- The database of the `insert_index_to_fill_shard` scenario: the open shard
of address 1 holds `NUM_OF_INDICES_IN_SHARD - 2` entries, so appending two
indices makes the combined list exactly `NUM_OF_INDICES_IN_SHARD` long. -/
def dbFill : DB :=
  { emptyDB with
    accountHistory := fun a =>
      if a = 1 then [(U64MAX, List.replicate (NUM_OF_INDICES_IN_SHARD - 2) 1)] else [] }

theorem insert_fill_shard :
    insert_history_index
      [(U64MAX, List.replicate (NUM_OF_INDICES_IN_SHARD - 2) 1)] [4, 5] =
      [(U64MAX, List.replicate (NUM_OF_INDICES_IN_SHARD - 2) 1 ++ [4, 5])] := by
  have hS : NUM_OF_INDICES_IN_SHARD ≠ 0 := by decide
  have hlen : (List.replicate (NUM_OF_INDICES_IN_SHARD - 2) 1 ++ [4, 5]).length =
      NUM_OF_INDICES_IN_SHARD := by
    simp [NUM_OF_INDICES_IN_SHARD]
  have hchunks : chunksOf NUM_OF_INDICES_IN_SHARD
      (List.replicate (NUM_OF_INDICES_IN_SHARD - 2) 1 ++ [4, 5]) =
      [List.replicate (NUM_OF_INDICES_IN_SHARD - 2) 1 ++ [4, 5]] :=
    chunksOf_eq_single hS (by simp) (le_of_eq hlen)
  have htake : take_last_shard [(U64MAX, List.replicate (NUM_OF_INDICES_IN_SHARD - 2) 1)] =
      ([], List.replicate (NUM_OF_INDICES_IN_SHARD - 2) 1) := by
    simp [take_last_shard, getA, eraseA]
  unfold insert_history_index
  rw [htake]
  simp only [hchunks]
  simp [putA]

/-- **C2 counterexample**: appending `[4, 5]` to an open shard of
`NUM_OF_INDICES_IN_SHARD - 2` entries makes the combined list exactly
`NUM_OF_INDICES_IN_SHARD` long, yet the whole (exactly full) list stays as
the open shard at `(address, u64::MAX)` — the open shard is not left empty,
and no chunk is written under `(address, 5)` (the last block of the full
chunk).  This contradicts the claim; it is the behaviour the repository's own
`insert_index_to_fill_shard` test asserts. -/
theorem exactly_full_append_C2_counterexample :
    (insert_account_history_index dbFill [(1, [4, 5])]).accountHistory 1 =
      [(U64MAX, List.replicate (NUM_OF_INDICES_IN_SHARD - 2) 1 ++ [4, 5])] ∧
    getA ((insert_account_history_index dbFill [(1, [4, 5])]).accountHistory 1) U64MAX ≠
      none ∧
    getA ((insert_account_history_index dbFill [(1, [4, 5])]).accountHistory 1) 5 = none := by
  have hdb : dbFill.accountHistory 1 =
      [(U64MAX, List.replicate (NUM_OF_INDICES_IN_SHARD - 2) 1)] := by
    simp [dbFill]
  have h1 : (insert_account_history_index dbFill [(1, [4, 5])]).accountHistory 1 =
      [(U64MAX, List.replicate (NUM_OF_INDICES_IN_SHARD - 2) 1 ++ [4, 5])] := by
    simp only [insert_account_history_index, List.foldl_cons, List.foldl_nil]
    simp only [updFun, if_pos rfl]
    rw [hdb, insert_fill_shard]
    simp
  refine ⟨h1, ?_, ?_⟩
  · rw [h1]
    simp [getA]
  · rw [h1]
    have : (5 : Nat) ≠ U64MAX := by norm_num [U64MAX]
    simp [getA, this]

/-- How many chunks `chunksOf` produces is irrelevant here: when the input
length is a positive multiple of `n`, the final chunk is exactly full. -/
theorem chunksOf_getLastD_length (n : Nat) (hn : n ≠ 0) :
    ∀ (k : Nat), 0 < k → ∀ (l : List Nat), l.length = k * n →
      ((chunksOf n l).getLastD []).length = n := by
  intro k
  induction k with
  | zero => omega
  | succ m ih =>
    intro _ l hlen
    by_cases hm : m = 0
    · subst hm
      have hlen1 : l.length = n := by omega
      have hlne : l ≠ [] := by
        intro hnil
        rw [hnil] at hlen1
        exact hn hlen1.symm
      rw [chunksOf_eq_single hn hlne (le_of_eq hlen1)]
      simpa using hlen1
    · have hlne : l ≠ [] := by
        intro hnil
        rw [hnil] at hlen
        simp only [List.length_nil] at hlen
        have : 0 < (m + 1) * n := Nat.mul_pos (Nat.succ_pos m) (Nat.pos_of_ne_zero hn)
        omega
      rw [chunksOf_cons_eq hn hlne]
      have hdropLen : (l.drop n).length = m * n := by
        rw [List.length_drop, hlen]
        have hnpos : 0 < n := Nat.pos_of_ne_zero hn
        calc (m + 1) * n - n = m * n + n - n := by ring_nf
          _ = m * n := by omega
      have hdropne : l.drop n ≠ [] := by
        intro hnil
        rw [hnil] at hdropLen
        simp only [List.length_nil] at hdropLen
        have : 0 < m * n := Nat.mul_pos (Nat.pos_of_ne_zero hm) (Nat.pos_of_ne_zero hn)
        omega
      have hrest_ne : chunksOf n (l.drop n) ≠ [] := by
        rw [chunksOf_cons_eq hn hdropne]
        simp
      rw [List.getLastD_cons]
      rw [getLastD_congr _ _ [] hrest_ne]
      exact ih (Nat.pos_of_ne_zero hm) (l.drop n) hdropLen

/-- **C2 amended**: when a history-index append makes the combined list
(previous open shard plus new indices) exactly a positive multiple of
`NUM_OF_INDICES_IN_SHARD` long, every chunk **except the last** is written
under `(address, last_block_in_chunk)`, and the last — itself exactly full —
chunk is written back as the open shard under `(address, u64::MAX)`; the open
shard is full, not empty, and no empty shard is created. -/
theorem exactly_full_append_keeps_open_shard_C2 (t t0 : ShardTable)
    (l0 indices : List Nat) (k : Nat)
    (htake : take_last_shard t = (t0, l0))
    (hkeys0 : (shardKeys t0).Pairwise (· < ·))
    (hlt : ∀ kk ∈ shardKeys t0, ∀ x ∈ l0 ++ indices, kk < x)
    (hsorted : (l0 ++ indices).Pairwise (· < ·))
    (hub : ∀ x ∈ l0 ++ indices, x ≤ U64MAX)
    (hne : indices ≠ [])
    (hk : 0 < k)
    (hlen : (l0 ++ indices).length = k * NUM_OF_INDICES_IN_SHARD) :
    insert_history_index t indices =
      t0 ++ (chunksOf NUM_OF_INDICES_IN_SHARD (l0 ++ indices)).dropLast.map
          (fun c => (c.getLastD 0, c))
        ++ [(U64MAX, (chunksOf NUM_OF_INDICES_IN_SHARD (l0 ++ indices)).getLastD [])] ∧
    ((chunksOf NUM_OF_INDICES_IN_SHARD (l0 ++ indices)).getLastD []).length =
      NUM_OF_INDICES_IN_SHARD := by
  refine ⟨insert_history_index_eq t t0 l0 indices htake hkeys0 hlt hsorted hub hne, ?_⟩
  exact chunksOf_getLastD_length NUM_OF_INDICES_IN_SHARD (by decide) k hk _ hlen

/-- Witness for the amended C2 at a concrete input: appending blocks
`1..=2000` to an empty key yields one exactly full chunk that stays at
`u64::MAX`. -/
theorem exactly_full_append_keeps_open_shard_C2_witness :
    (([] ++ List.range' 1 2000).length = 1 * NUM_OF_INDICES_IN_SHARD) ∧
    (insert_history_index [] (List.range' 1 2000) =
      [] ++ (chunksOf NUM_OF_INDICES_IN_SHARD ([] ++ List.range' 1 2000)).dropLast.map
          (fun c => (c.getLastD 0, c))
        ++ [(U64MAX, (chunksOf NUM_OF_INDICES_IN_SHARD ([] ++ List.range' 1 2000)).getLastD [])] ∧
    ((chunksOf NUM_OF_INDICES_IN_SHARD ([] ++ List.range' 1 2000)).getLastD []).length =
      NUM_OF_INDICES_IN_SHARD) := by
  refine ⟨by simp [NUM_OF_INDICES_IN_SHARD], ?_⟩
  refine exactly_full_append_keeps_open_shard_C2 [] [] [] (List.range' 1 2000) 1
    rfl (by simp [shardKeys]) (by simp [shardKeys]) ?_ ?_ (by simp) (by norm_num)
    (by simp [NUM_OF_INDICES_IN_SHARD])
  · simpa using List.pairwise_lt_range' 1 2000
  · intro x hx
    simp only [List.nil_append] at hx
    rw [List.mem_range'_1] at hx
    have : (2001 : Nat) ≤ U64MAX := by norm_num [U64MAX]
    omega

/-- The database for the C3 scenario: address 1 has a closed full shard at
key 10 (all entries are block 10) and the open shard `[12]`; block 12 touched
the address, so unwinding to target `T = 11` walks with boundary 12. -/
def dbC3 : DB :=
  { emptyDB with
    accountHistory := fun a =>
      if a = 1 then
        [(10, List.replicate NUM_OF_INDICES_IN_SHARD 10), (U64MAX, [12])]
      else [],
    accountChangeSets := [(12, 1, none)] }

theorem unwind_moves_surviving_shard :
    unwind_history_index
      [(10, List.replicate NUM_OF_INDICES_IN_SHARD 10), (U64MAX, [12])] 12 =
      [(U64MAX, List.replicate NUM_OF_INDICES_IN_SHARD 10)] := by
  rw [show NUM_OF_INDICES_IN_SHARD = 2000 from rfl]
  have hhead : (List.replicate 2000 10).headD 0 = 10 := by
    rw [show (2000 : Nat) = 1999 + 1 by norm_num, headD_replicate]
  have hne : List.replicate 2000 10 ≠ [] := by simp
  unfold unwind_history_index unwind_history_shards
  rw [show getA [(10, List.replicate 2000 10), (U64MAX, [12])] U64MAX = some [12] from by
    norm_num [getA, U64MAX]]
  simp only [List.reverse_cons, List.reverse_nil, List.nil_append, List.cons_append]
  rw [show unwind_history_shards_go 12
      [(U64MAX, [12]), (10, List.replicate 2000 10)] = ([], List.replicate 2000 10) from by
    unfold unwind_history_shards_go
    rw [if_pos (by norm_num)]
    unfold unwind_history_shards_go
    rw [if_neg (by rw [hhead]; norm_num), if_neg (by norm_num)]]
  simp [hne, putA]

/-- **C3 counterexample**: unwinding to target `T = 11` (boundary block 12),
the scan reaches the closed shard at key `(1, 10)` whose minimum 10 is
`< T + 1` and whose maximum 10 is `≤ T` — the shard entirely survives.  The
claim says it is left in place under its original key `(address, 10)`; the
code instead deletes it and re-inserts its whole list at
`(address, u64::MAX)`: afterwards key 10 is absent. -/
theorem surviving_shard_not_left_in_place_C3_counterexample :
    (unwind_account_history_indices dbC3 12 12).accountHistory 1 =
      [(U64MAX, List.replicate NUM_OF_INDICES_IN_SHARD 10)] ∧
    getA ((unwind_account_history_indices dbC3 12 12).accountHistory 1) 10 = none := by
  have hcs : accountCsInRange dbC3 12 12 = [(12, 1, none)] := by
    simp [accountCsInRange, dbC3]
  have h1 : (unwind_account_history_indices dbC3 12 12).accountHistory 1 =
      [(U64MAX, List.replicate NUM_OF_INDICES_IN_SHARD 10)] := by
    simp only [unwind_account_history_indices, hcs]
    simp only [List.reverse_cons, List.reverse_nil, List.nil_append,
      List.foldl_cons, List.foldl_nil]
    rw [show putA natLt ([] : List (Nat × Nat)) 1 12 = [(1, 12)] from rfl]
    simp only [List.foldl_cons, List.foldl_nil]
    simp only [updFun, if_pos rfl]
    rw [show dbC3.accountHistory 1 =
        [(10, List.replicate NUM_OF_INDICES_IN_SHARD 10), (U64MAX, [12])] from by simp [dbC3]]
    rw [unwind_moves_surviving_shard]
    simp
  refine ⟨h1, ?_⟩
  rw [h1]
  have : (10 : Nat) ≠ U64MAX := by norm_num [U64MAX]
  simp [getA, this]

/-- The cursor loop skips (and deletes) every shard whose first element is at
or above the boundary. -/
theorem unwind_history_shards_go_skip (b : Nat) (u v : List (Nat × List Nat))
    (hu : ∀ p ∈ u, b ≤ p.2.headD 0) :
    unwind_history_shards_go b (u ++ v) = unwind_history_shards_go b v := by
  induction u with
  | nil => simp
  | cons p u ih =>
    obtain ⟨h, l⟩ := p
    have h1 : b ≤ l.headD 0 := hu (h, l) (by simp)
    rw [List.cons_append]
    have h2 : unwind_history_shards_go b ((h, l) :: (u ++ v)) =
        unwind_history_shards_go b (u ++ v) := by
      conv_lhs => rw [unwind_history_shards_go]
      rw [if_pos h1]
    rw [h2]
    exact ih (fun q hq => hu q (by simp [hq]))

/-- **C3 amended**: during a history-index unwind with boundary block `b`
(`= T + 1`), when the descending scan reaches a shard whose minimum is
`< T + 1` and whose key (= maximum) is `≤ T`, that shard — like every scanned
shard — is **deleted**, and its entire list is re-inserted as the new open
shard under `(address, u64::MAX)`; the scan stops, leaving the shards below
untouched. -/
theorem unwind_surviving_shard_moves_to_open_C3 (pre post : ShardTable)
    (h : Nat) (l : List Nat) (b : Nat)
    (hkeys : (shardKeys (pre ++ (h, l) :: post)).Pairwise (· < ·))
    (hkeysUB : ∀ k ∈ shardKeys (pre ++ (h, l) :: post), k ≤ U64MAX)
    (hopen : (getA (pre ++ (h, l) :: post) U64MAX).isSome)
    (hpostmin : ∀ p ∈ post, b ≤ p.2.headD 0)
    (hl_ne : l ≠ [])
    (hmin : l.headD 0 < b)
    (hmax : h < b) :
    unwind_history_index (pre ++ (h, l) :: post) b = pre ++ [(U64MAX, l)] := by
  obtain ⟨l0, hl0⟩ := Option.isSome_iff_exists.mp hopen
  unfold unwind_history_index unwind_history_shards
  rw [hl0]
  simp only
  have hrev : (pre ++ (h, l) :: post).reverse =
      post.reverse ++ (h, l) :: pre.reverse := by
    simp
  rw [hrev]
  rw [unwind_history_shards_go_skip b post.reverse _
    (fun p hp => hpostmin p (List.mem_reverse.mp hp))]
  rw [show unwind_history_shards_go b ((h, l) :: pre.reverse) = (pre.reverse, l) from by
    unfold unwind_history_shards_go
    rw [if_neg (by omega), if_neg (by omega)]]
  simp only [List.reverse_reverse]
  rw [if_neg hl_ne]
  have hprekeys : ∀ k ∈ pre.map Prod.fst, k < U64MAX := by
    intro k hk
    have hlt : k < h := by
      rw [shardKeys_append, List.pairwise_append] at hkeys
      exact hkeys.2.2 k hk h (by simp [shardKeys])
    have hle : h ≤ U64MAX :=
      hkeysUB h (by rw [shardKeys_append]; simp [shardKeys])
    omega
  rw [putA_append_natLt _ _ _ hprekeys]

/-- Witness for the amended C3 at a concrete input: shards
`[(10, [5]), (u64::MAX, [12])]`, boundary 12. -/
theorem unwind_surviving_shard_moves_to_open_C3_witness :
    ([5] ≠ ([] : List Nat)) ∧ ([5] : List Nat).headD 0 < 12 ∧ (10 : Nat) < 12 ∧
    unwind_history_index ([] ++ (10, [5]) :: [(U64MAX, [12])]) 12 = [] ++ [(U64MAX, [5])] := by
  refine ⟨by simp, by norm_num, by norm_num, ?_⟩
  refine unwind_surviving_shard_moves_to_open_C3 [] [(U64MAX, [12])] 10 [5] 12
    ?_ ?_ ?_ ?_ (by simp) (by norm_num) (by norm_num)
  · simp only [List.nil_append, shardKeys, List.map_cons, List.map_nil]
    refine List.Pairwise.cons ?_ (List.Pairwise.cons (by simp) List.Pairwise.nil)
    intro b hb
    simp only [List.mem_cons, List.mem_singleton] at hb
    rcases hb with rfl | h
    · norm_num [U64MAX]
    · cases h
  · intro k hk
    simp only [List.nil_append, shardKeys, List.map_cons, List.map_nil,
      List.mem_cons, List.mem_singleton] at hk
    rcases hk with rfl | hk
    · norm_num [U64MAX]
    · rcases hk with rfl | h
      · exact le_refl _
      · cases h
  · rw [show getA ([] ++ (10, [5]) :: [(U64MAX, [12])]) U64MAX = some [12] from by
      norm_num [getA, U64MAX]]
    rfl
  · intro p hp
    simp only [List.mem_singleton] at hp
    subst hp
    norm_num

/-- The four unwind steps that precede the state-root verification only touch
the hashed-state and history tables: headers, canonical hashes, block body
indices, transactions and receipts are untouched. -/
theorem historyAndHashingUnwound_tables (kec : Nat → Nat) (db : DB) (lo hi : Nat) :
    (historyAndHashingUnwound kec db lo hi).headers = db.headers ∧
    (historyAndHashingUnwound kec db lo hi).canonicalHeaders = db.canonicalHeaders ∧
    (historyAndHashingUnwound kec db lo hi).blockBodyIndices = db.blockBodyIndices ∧
    (historyAndHashingUnwound kec db lo hi).transactions = db.transactions ∧
    (historyAndHashingUnwound kec db lo hi).receipts = db.receipts := by
  refine ⟨?_, ?_, ?_, ?_, ?_⟩ <;>
    simp [historyAndHashingUnwound, unwind_storage_history_indices, unwind_storage_hashing,
      unwind_account_history_indices, unwind_account_hashing]

/-- **C5**: A taking unwind over `[lo, hi]` whose recomputed incremental
state root differs from `Headers[lo−1].state_root` fails with
`UnwindStateRootMismatch` carrying the computed root as `got`, the parent's
state root as `expected`, block number `lo−1` and the canonical hash of
`lo−1`; and no headers, block bodies, transactions or receipts are deleted
(the whole tables are unchanged at the point of failure). -/
theorem unwind_state_root_mismatch_C5 (spec : ChainSpecM) (kec : Nat → Nat)
    (txHashFn : TransactionSignedNoHashM → Nat) (incRoot : DB → Nat → Nat → Nat)
    (db : DB) (lo hi : Nat) (parent_header : HeaderM) (parent_hash : Nat)
    (hparent : db.headers (lo - 1) = some parent_header)
    (hhash : db.canonicalHeaders (lo - 1) = some parent_hash)
    (hmismatch : incRoot (historyAndHashingUnwound kec db lo hi) lo hi ≠
      parent_header.state_root) :
    (get_take_block_and_execution_range true spec kec txHashFn incRoot db lo hi).2 =
      .error (.unwindStateRootMismatch
        (incRoot (historyAndHashingUnwound kec db lo hi) lo hi)
        parent_header.state_root (lo - 1) parent_hash) ∧
    (get_take_block_and_execution_range true spec kec txHashFn incRoot db lo hi).1.headers =
      db.headers ∧
    (get_take_block_and_execution_range true spec kec txHashFn
        incRoot db lo hi).1.blockBodyIndices = db.blockBodyIndices ∧
    (get_take_block_and_execution_range true spec kec txHashFn
        incRoot db lo hi).1.transactions = db.transactions ∧
    (get_take_block_and_execution_range true spec kec txHashFn incRoot db lo hi).1.receipts =
      db.receipts := by
  obtain ⟨ht1, ht2, ht3, ht4, ht5⟩ := historyAndHashingUnwound_tables kec db lo hi
  have hph : (historyAndHashingUnwound kec db lo hi).headers (lo - 1) = some parent_header := by
    rw [ht1]
    exact hparent
  have hch : (historyAndHashingUnwound kec db lo hi).canonicalHeaders (lo - 1) =
      some parent_hash := by
    rw [ht2]
    exact hhash
  have hres : get_take_block_and_execution_range true spec kec txHashFn incRoot db lo hi =
      (historyAndHashingUnwound kec db lo hi,
        .error (.unwindStateRootMismatch
          (incRoot (historyAndHashingUnwound kec db lo hi) lo hi)
          parent_header.state_root (lo - 1) parent_hash)) := by
    unfold get_take_block_and_execution_range
    simp only [if_true, hph, hch]
    rw [if_pos hmismatch]
  rw [hres]
  exact ⟨rfl, ht1, ht3, ht4, ht5⟩

/-- A database with only a parent header (state root 5) and its canonical
hash 7 at block 0. -/
def dbC5 : DB :=
  { emptyDB with
    headers := fun n => if n = 0 then some ⟨5, 0⟩ else none,
    canonicalHeaders := fun n => if n = 0 then some 7 else none }

/-- Witness for C5: a trie engine that computes root 3 while the parent
expects 5 makes the taking unwind of `[1, 1]` fail with
`UnwindStateRootMismatch { got := 3, expected := 5, block := 0, hash := 7 }`. -/
theorem unwind_state_root_mismatch_C5_witness :
    dbC5.headers 0 = some ⟨5, 0⟩ ∧ (3 : Nat) ≠ (5 : Nat) ∧
    (get_take_block_and_execution_range true ⟨none, none⟩ (fun a => a) (fun _ => 0)
        (fun _ _ _ => 3) dbC5 1 1).2 =
      .error (.unwindStateRootMismatch 3 5 0 7) := by
  refine ⟨rfl, by norm_num, ?_⟩
  exact (unwind_state_root_mismatch_C5 ⟨none, none⟩ (fun a => a) (fun _ => 0)
    (fun _ _ _ => 3) dbC5 1 1 ⟨5, 0⟩ 7 rfl rfl (by simp)).1

def acct100 : AccountM := ⟨1, 100, none⟩

/-- A database whose only changeset row is junk: the recorded prior account
of address 7 at block 1 equals the current plain-state account. -/
def dbJunk : DB :=
  { emptyDB with
    blockBodyIndices := fun n => if n = 1 then some ⟨0, 0⟩ else none,
    accountChangeSets := [(1, 7, some acct100)],
    plainAccountState := fun a => if a = 7 then some acct100 else none }

/-- **C6 counterexample**: a changeset row whose recorded prior equals the
reconstructed new value makes `get_take_block_execution_result_range` hit
`unreachable!` — the outcome is a panic, not the returned `JunkChangeset`
error value the claim requires. -/
theorem junk_changeset_panics_C6_counterexample :
    get_take_block_execution_result_range false dbJunk 1 1 =
      .error (.panicked
        "Junk data in database: an account changeset did not represent any change") ∧
    TransactionErrorM.panicked
        "Junk data in database: an account changeset did not represent any change" ≠
      TransactionErrorM.junkChangeset := by
  exact ⟨rfl, by simp⟩

/-- The panic message of the account-changeset loop for the two junk
patterns: a prior equal to the reconstructed value, and a no-account to
no-account transition. -/
def junkAccountMsg : Option AccountM → String
  | some _ => "Junk data in database: an account changeset did not represent any change"
  | none => "Junk data in database: an account changeset transitioned from no account to no account"

theorem accountChangesLoop_junk (plain : Nat → Option AccountM) (bn addr : Nat)
    (pv : Option AccountM) (bs : BlockStatesM) (hplain : plain addr = pv) :
    accountChangesLoop plain [(bn, addr, pv)] [] bs =
      .error (.panicked (junkAccountMsg pv)) := by
  unfold accountChangesLoop
  simp only [getA, hplain]
  cases pv with
  | some a => simp [junkAccountMsg]
  | none => simp [junkAccountMsg]

/-- **C6 amended**: during reverse reconstruction, an account changeset row
whose recorded prior equals the reconstructed new value — and likewise a row
transitioning from no account to no account — causes
`get_take_block_execution_result_range` to **panic** (`unreachable!`, modelled
by the `panicked` outcome), rather than returning an error value or silently
skipping the row. -/
theorem junk_changeset_panics_C6 (TAKE : Bool) (db : DB) (lo hi bn addr : Nat)
    (pv : Option AccountM)
    (hrange : lo ≤ hi)
    (hbodies : rangeEntries db.blockBodyIndices lo hi ≠ [])
    (hcs : accountCsInRange db lo hi = [(bn, addr, pv)])
    (hplain : db.plainAccountState addr = pv) :
    get_take_block_execution_result_range TAKE db lo hi =
      .error (.panicked (junkAccountMsg pv)) := by
  unfold get_take_block_execution_result_range
  rw [if_neg (by omega)]
  obtain ⟨x, xs, hxx⟩ := List.exists_cons_of_ne_nil hbodies
  have hh : (x :: xs).head? = some x := rfl
  have hgl : (x :: xs).getLast? = some ((x :: xs).getLast (by simp)) :=
    List.getLast?_eq_getLast _ _
  rw [hxx]
  simp only [hh, hgl]
  rw [hcs, List.reverse_singleton]
  rw [accountChangesLoop_junk db.plainAccountState bn addr pv _ hplain]

/-- Witness for the amended C6 at `dbJunk` with `TAKE = true`. -/
theorem junk_changeset_panics_C6_witness :
    (1 : Nat) ≤ 1 ∧ rangeEntries dbJunk.blockBodyIndices 1 1 ≠ [] ∧
    accountCsInRange dbJunk 1 1 = [(1, 7, some acct100)] ∧
    dbJunk.plainAccountState 7 = some acct100 ∧
    get_take_block_execution_result_range true dbJunk 1 1 =
      .error (.panicked (junkAccountMsg (some acct100))) := by
  refine ⟨le_refl 1, by decide, by decide, by decide, ?_⟩
  exact junk_changeset_panics_C6 true dbJunk 1 1 1 7 (some acct100)
    (le_refl 1) (by decide) (by decide) (by decide)

theorem mem_of_getA {κ β : Type} [DecidableEq κ] {m : List (κ × β)} {kp : κ} {v : β}
    (h : getA m kp = some v) : (kp, v) ∈ m := by
  induction m with
  | nil => cases h
  | cons p m ih =>
    obtain ⟨k1, v1⟩ := p
    by_cases hk : kp = k1
    · subst hk
      rw [show getA ((kp, v1) :: m) kp = some v1 from by simp [getA]] at h
      rw [show v = v1 from (Option.some_inj.mp h).symm]
      simp
    · rw [show getA ((k1, v1) :: m) kp = getA m kp from by simp [getA, hk]] at h
      exact List.mem_cons.mpr (Or.inr (ih h))

theorem mem_putA {κ β : Type} [DecidableEq κ] (lt : κ → κ → Bool) {m : List (κ × β)}
    {k : κ} {v : β} {p : κ × β} (h : p ∈ putA lt m k v) : p = (k, v) ∨ p ∈ m := by
  induction m with
  | nil => simpa [putA] using h
  | cons q m ih =>
    obtain ⟨k1, v1⟩ := q
    by_cases hlt : lt k k1
    · rw [show putA lt ((k1, v1) :: m) k v = (k, v) :: (k1, v1) :: m from by
        simp [putA, hlt]] at h
      rcases List.mem_cons.mp h with h1 | h1
      · exact Or.inl h1
      · exact Or.inr h1
    · by_cases heq : k = k1
      · rw [show putA lt ((k1, v1) :: m) k v = (k, v) :: m from by
          subst heq; simp [putA, hlt]] at h
        rcases List.mem_cons.mp h with h1 | h1
        · exact Or.inl h1
        · exact Or.inr (List.mem_cons.mpr (Or.inr h1))
      · rw [show putA lt ((k1, v1) :: m) k v = (k1, v1) :: putA lt m k v from by
          simp [putA, hlt, heq]] at h
        rcases List.mem_cons.mp h with h1 | h1
        · exact Or.inr (List.mem_cons.mpr (Or.inl h1))
        · rcases ih h1 with h2 | h2
          · exact Or.inl h2
          · exact Or.inr (List.mem_cons.mpr (Or.inr h2))

theorem keys_putA_subset {κ β : Type} [DecidableEq κ] (lt : κ → κ → Bool)
    {m : List (κ × β)} {k : κ} {v : β} {x : κ}
    (h : x ∈ (putA lt m k v).map Prod.fst) : x = k ∨ x ∈ m.map Prod.fst := by
  obtain ⟨p, hp, hpx⟩ := List.mem_map.mp h
  rcases mem_putA lt hp with h1 | h1
  · left
    rw [← hpx, h1]
  · exact Or.inr (List.mem_map.mpr ⟨p, h1, hpx⟩)

theorem pairwise_keys_putA {κ β : Type} [DecidableEq κ] (lt : κ → κ → Bool)
    (htrans : ∀ a b c, lt a b = true → lt b c = true → lt a c = true)
    (hconn : ∀ a b, a ≠ b → lt a b = true ∨ lt b a = true)
    (m : List (κ × β)) (k : κ) (v : β)
    (h : (m.map Prod.fst).Pairwise (fun a b => lt a b = true)) :
    ((putA lt m k v).map Prod.fst).Pairwise (fun a b => lt a b = true) := by
  induction m with
  | nil => simp [putA]
  | cons q m ih =>
    obtain ⟨k1, v1⟩ := q
    simp only [List.map_cons, List.pairwise_cons] at h
    by_cases hlt : lt k k1
    · rw [show putA lt ((k1, v1) :: m) k v = (k, v) :: (k1, v1) :: m from by
        simp [putA, hlt]]
      simp only [List.map_cons, List.pairwise_cons]
      refine ⟨?_, h.1, h.2⟩
      intro x hx
      rcases List.mem_cons.mp hx with hx | hx
      · rw [hx]; exact hlt
      · exact htrans k k1 x hlt (h.1 x hx)
    · by_cases heq : k = k1
      · subst heq
        rw [show putA lt ((k, v1) :: m) k v = (k, v) :: m from by simp [putA, hlt]]
        simp only [List.map_cons, List.pairwise_cons]
        exact ⟨h.1, h.2⟩
      · rw [show putA lt ((k1, v1) :: m) k v = (k1, v1) :: putA lt m k v from by
          simp [putA, hlt, heq]]
        simp only [List.map_cons, List.pairwise_cons]
        refine ⟨?_, ih h.2⟩
        intro x hx
        rcases keys_putA_subset lt hx with h1 | h1
        · rcases hconn k k1 heq with h2 | h2
          · exact absurd h2 hlt
          · rw [h1]; exact h2
        · exact h.1 x h1

theorem nodup_of_pairwise_keys {κ : Type} (lt : κ → κ → Bool)
    (hirr : ∀ a, lt a a = false) (l : List κ)
    (h : l.Pairwise (fun a b => lt a b = true)) : l.Nodup := by
  refine h.imp ?_
  intro a b hab he
  rw [he, hirr b] at hab
  cases hab

theorem pairwise_keys_foldl_putA {α κ β : Type} [DecidableEq κ] (lt : κ → κ → Bool)
    (htrans : ∀ a b c, lt a b = true → lt b c = true → lt a c = true)
    (hconn : ∀ a b, a ≠ b → lt a b = true ∨ lt b a = true)
    (hk : α → κ) (hv : α → β) (l : List α) (init : List (κ × β))
    (hinit : (init.map Prod.fst).Pairwise (fun a b => lt a b = true)) :
    (((l.foldl (fun m p => putA lt m (hk p) (hv p)) init)).map Prod.fst).Pairwise
      (fun a b => lt a b = true) := by
  induction l generalizing init with
  | nil => exact hinit
  | cons p l ih =>
    rw [List.foldl_cons]
    exact ih _ (pairwise_keys_putA lt htrans hconn init (hk p) (hv p) hinit)

theorem natLt_irrefl (a : Nat) : natLt a a = false := by simp [natLt]

theorem natLt_trans (a b c : Nat) (h1 : natLt a b = true) (h2 : natLt b c = true) :
    natLt a c = true := by
  simp [natLt] at *
  omega

theorem natLt_conn (a b : Nat) (h : a ≠ b) : natLt a b = true ∨ natLt b a = true := by
  simp [natLt]
  omega

theorem pairLt_irrefl (a : Nat × Nat) : pairLt a a = false := by simp [pairLt]

theorem pairLt_trans (a b c : Nat × Nat) (h1 : pairLt a b = true) (h2 : pairLt b c = true) :
    pairLt a c = true := by
  simp [pairLt] at *
  omega

theorem pairLt_conn (a b : Nat × Nat) (h : a ≠ b) : pairLt a b = true ∨ pairLt b a = true := by
  obtain ⟨a1, a2⟩ := a
  obtain ⟨b1, b2⟩ := b
  have : a1 ≠ b1 ∨ a2 ≠ b2 := by
    by_contra hc
    push_neg at hc
    exact h (by rw [hc.1, hc.2])
  simp [pairLt]
  omega

/-- Last-write-wins description of folding `putA` over a list of source rows,
with the key and value extracted from each row. -/
theorem getA_foldl_putA_map {α κ β : Type} [DecidableEq κ] (lt : κ → κ → Bool)
    (hk : α → κ) (hv : α → β) (l : List α) (init : List (κ × β)) (k : κ) :
    getA (l.foldl (fun acc p => putA lt acc (hk p) (hv p)) init) k =
      match l.reverse.find? (fun p => hk p = k) with
      | some p => some (hv p)
      | none => getA init k := by
  induction l generalizing init with
  | nil => simp
  | cons p l ih =>
    rw [List.foldl_cons, ih]
    rw [List.reverse_cons, List.find?_append]
    cases hfind : List.find? (fun p => decide (hk p = k)) l.reverse with
    | some q => simp
    | none =>
      simp only [Option.none_or]
      by_cases h : hk p = k
      · subst h
        simp [List.find?, getA_putA]
      · simp [List.find?, h, getA_putA, Ne.symm h]

theorem getA_eq_map_find? {κ β : Type} [DecidableEq κ] (m : List (κ × β)) (k : κ) :
    getA m k = Option.map Prod.snd (m.find? (fun p => p.1 = k)) := by
  induction m with
  | nil => rfl
  | cons q m ih =>
    obtain ⟨k1, v1⟩ := q
    by_cases h : k1 = k
    · subst h
      simp [getA, List.find?]
    · simp [getA, List.find?, h, Ne.symm h, ih]

/-- With duplicate-free keys, the first match from either end is the same
(unique) entry. -/
theorem find?_reverse_of_nodup {κ β : Type} [DecidableEq κ] (m : List (κ × β)) (k : κ)
    (hnd : (m.map Prod.fst).Nodup) :
    m.reverse.find? (fun p => p.1 = k) = m.find? (fun p => p.1 = k) := by
  induction m with
  | nil => rfl
  | cons q m ih =>
    obtain ⟨k1, v1⟩ := q
    simp only [List.map_cons, List.nodup_cons] at hnd
    rw [List.reverse_cons, List.find?_append, ih hnd.2]
    by_cases h : k1 = k
    · subst h
      have hnone : m.find? (fun p => (decide (p.1 = k1))) = none := by
        apply List.find?_eq_none.mpr
        intro p hp hc
        exact hnd.1 (List.mem_map.mpr ⟨p, hp, of_decide_eq_true hc⟩)
      rw [hnone]
      simp [List.find?]
    · simp [List.find?, h]

/-- Value of a fold of `updFun2` writes driven by an association list with
duplicate-free keys. -/
theorem foldl_updFun2_getA (l : List ((Nat × Nat) × Nat)) (g : Nat → Option Nat)
    (f0 : Nat → Nat → Option Nat) (x y : Nat)
    (hnd : (l.map Prod.fst).Nodup) :
    (l.foldl (fun f p => updFun2 f p.1.1 p.1.2 (g p.2)) f0) x y =
      match getA l (x, y) with
      | some v => g v
      | none => f0 x y := by
  induction l generalizing f0 with
  | nil => rfl
  | cons q l ih =>
    obtain ⟨⟨qa, qk⟩, qv⟩ := q
    simp only [List.map_cons, List.nodup_cons] at hnd
    rw [List.foldl_cons, ih _ hnd.2]
    by_cases h : (x, y) = (qa, qk)
    · have hx : x = qa := (Prod.mk.injEq _ _ _ _ ▸ h).1
      have hy : y = qk := (Prod.mk.injEq _ _ _ _ ▸ h).2
      have hnone : getA l (x, y) = none := by
        apply getA_not_mem
        intro k' hk' he
        refine hnd.1 ?_
        rw [← h, ← he]
        exact hk'
      rw [hnone]
      simp [getA, h, updFun2, hx, hy]
    · cases hget : getA l (x, y) with
      | some v => simp [getA, h, hget]
      | none =>
        have hne : ¬(x = qa ∧ y = qk) := by
          intro hc
          exact h (by rw [hc.1, hc.2])
        simp [getA, h, hget, updFun2, hne]

/-- The oldest in-range changeset row for a slot dictates the hashed-storage
row after `unwind_storage_hashing`: prior `0` deletes, otherwise upserts. -/
theorem unwind_storage_hashing_at (kec : Nat → Nat) (hkec : Function.Injective kec)
    (db : DB) (lo hi a k : Nat) (c : (Nat × Nat) × Nat × Nat)
    (hfind : (storageCsInRange db lo hi).find? (fun e => (e.1.2, e.2.1) = (a, k)) = some c) :
    (unwind_storage_hashing kec db lo hi).hashedStorage (kec a) (kec k) =
      if c.2.2 = 0 then none else some c.2.2 := by
  set cs := storageCsInRange db lo hi with hcs
  set storages := cs.reverse.foldl
      (fun m e => putA pairLt m (e.1.2, e.2.1) e.2.2) ([] : List ((Nat × Nat) × Nat))
    with hst
  set hashed := storages.foldl
      (fun m p => putA pairLt m (kec p.1.1, kec p.1.2) p.2) ([] : List ((Nat × Nat) × Nat))
    with hh
  have hpw1 : (storages.map Prod.fst).Pairwise (fun x y => pairLt x y = true) := by
    rw [hst]
    exact pairwise_keys_foldl_putA pairLt pairLt_trans pairLt_conn
      (fun e => (e.1.2, e.2.1)) (fun e => e.2.2) cs.reverse [] (by simp)
  have nodup1 := nodup_of_pairwise_keys pairLt pairLt_irrefl _ hpw1
  have hpw2 : (hashed.map Prod.fst).Pairwise (fun x y => pairLt x y = true) := by
    rw [hh]
    exact pairwise_keys_foldl_putA pairLt pairLt_trans pairLt_conn
      (fun p => (kec p.1.1, kec p.1.2)) (fun p => p.2) storages [] (by simp)
  have nodup2 := nodup_of_pairwise_keys pairLt pairLt_irrefl _ hpw2
  have hgs : getA storages (a, k) = some c.2.2 := by
    have h1 := getA_foldl_putA_map pairLt (fun e => (e.1.2, e.2.1)) (fun e => e.2.2)
        cs.reverse [] (a, k)
    rw [List.reverse_reverse] at h1
    rw [hfind] at h1
    rw [hst]
    exact h1
  have hgh : getA hashed (kec a, kec k) = some c.2.2 := by
    have h2 := getA_foldl_putA_map pairLt (fun p => (kec p.1.1, kec p.1.2)) (fun p => p.2)
        storages [] (kec a, kec k)
    have hpred : (fun p : (Nat × Nat) × Nat =>
          decide ((kec p.1.1, kec p.1.2) = (kec a, kec k)))
        = (fun p : (Nat × Nat) × Nat => decide (p.1 = (a, k))) := by
      funext p
      rw [decide_eq_decide, Prod.mk.injEq, Prod.ext_iff]
      constructor
      · intro h
        exact ⟨hkec h.1, hkec h.2⟩
      · intro h
        rw [h.1, h.2]
        exact ⟨rfl, rfl⟩
    rw [hpred, find?_reverse_of_nodup storages (a, k) nodup1] at h2
    have h3 := getA_eq_map_find? storages (a, k)
    rw [hgs] at h3
    cases hq : storages.find? (fun p => p.1 = (a, k)) with
    | none =>
      rw [hq] at h3
      cases h3
    | some q =>
      rw [hq] at h3 h2
      rw [hh]
      rw [h2]
      exact h3.symm
  show (hashed.foldl
      (fun f p => updFun2 f p.1.1 p.1.2 (if p.2 = 0 then none else some p.2))
      db.hashedStorage) (kec a) (kec k) = if c.2.2 = 0 then none else some c.2.2
  have h4 := foldl_updFun2_getA hashed (fun v => if v = 0 then none else some v)
      db.hashedStorage (kec a) (kec k) nodup2
  rw [h4, hgh]

/-- The prior value `local_plain_state` holds for storage slot `(a, k)`. -/
def lpsStorAt (lps : LocalStateM) (a k : Nat) : Option Nat :=
  match getA lps a with
  | some e => getA e.2 k
  | none => none

theorem find?_eq_head?_filter {α : Type} (p : α → Bool) (l : List α) :
    l.find? p = (l.filter p).head? := by
  induction l with
  | nil => rfl
  | cons a l ih =>
    cases hpa : p a
    · rw [List.find?_cons_of_neg _ (by simp [hpa]), List.filter_cons_of_neg (by simp [hpa])]
      exact ih
    · rw [List.find?_cons_of_pos _ hpa, List.filter_cons_of_pos hpa]
      rfl

theorem storageChangesLoop_storAt (pS : Nat → Nat → Option Nat)
    (rows : List ((Nat × Nat) × Nat × Nat)) (lps : LocalStateM)
    (sc : List ((Nat × Nat) × List (Nat × Nat × Nat))) (a k : Nat) :
    lpsStorAt (storageChangesLoop pS rows lps sc).1 a k =
      match (rows.filter (fun r => (r.1.2, r.2.1) = (a, k))).getLast? with
      | some r => some r.2.2
      | none => lpsStorAt lps a k := by
  induction rows generalizing lps sc with
  | nil => simp [storageChangesLoop]
  | cons r rows ih =>
    obtain ⟨⟨bn, addr⟩, key, prior⟩ := r
    show lpsStorAt (storageChangesLoop pS rows
        (putA natLt lps addr (((getA lps addr).getD (none, [])).1,
          putA natLt ((getA lps addr).getD (none, [])).2 key prior))
        (putA pairLt sc (bn, addr)
          (putA natLt ((getA sc (bn, addr)).getD []) key
            (prior, match getA ((getA lps addr).getD (none, [])).2 key with
              | none => (pS addr key).getD 0
              | some current => current)))).1 a k = _
    rw [ih]
    have hstep : lpsStorAt (putA natLt lps addr
        (((getA lps addr).getD (none, [])).1,
          putA natLt ((getA lps addr).getD (none, [])).2 key prior)) a k
        = if (addr, key) = (a, k) then some prior else lpsStorAt lps a k := by
      by_cases h1 : a = addr
      · subst h1
        by_cases h2 : k = key
        · subst h2
          simp [lpsStorAt, getA_putA]
        · have h2' : ¬key = k := fun h => h2 h.symm
          cases hg : getA lps a with
          | none =>
            simp [lpsStorAt, getA_putA, getA, hg, h2, h2']
          | some e =>
            simp [lpsStorAt, getA_putA, getA, hg, h2, h2']
      · have hne : ((addr, key) : Nat × Nat) ≠ (a, k) := by
          intro hc
          exact h1 ((Prod.mk.injEq _ _ _ _ ▸ hc).1.symm)
        simp [lpsStorAt, getA_putA, h1, hne]
    by_cases hp : ((addr, key) : Nat × Nat) = (a, k)
    · rw [List.filter_cons_of_pos (by simpa using hp)]
      cases hfl : rows.filter (fun r => (r.1.2, r.2.1) = (a, k)) with
      | nil =>
        simp [hstep, hp]
      | cons q l =>
        rw [List.getLast?_cons_cons]
        cases hgl : (q :: l).getLast? with
        | none => simp at hgl
        | some r => rfl
    · rw [List.filter_cons_of_neg (by simpa using hp)]
      rw [hstep, if_neg hp]

/-- Well-formedness of `local_plain_state`: outer keys strictly ascending and
every per-address storage map strictly ascending. -/
def LpsInv (lps : LocalStateM) : Prop :=
  (lps.map Prod.fst).Pairwise (fun a b => natLt a b = true) ∧
  ∀ e ∈ lps, ((e.2.2).map Prod.fst).Pairwise (fun a b => natLt a b = true)

theorem lpsInv_nil : LpsInv [] := ⟨List.Pairwise.nil, by intro e he; cases he⟩

theorem lpsInv_putA (lps : LocalStateM) (addr : Nat) (x : Option (Option AccountM))
    (stor : List (Nat × Nat)) (hinv : LpsInv lps)
    (hstor : (stor.map Prod.fst).Pairwise (fun a b => natLt a b = true)) :
    LpsInv (putA natLt lps addr (x, stor)) := by
  constructor
  · exact pairwise_keys_putA natLt natLt_trans natLt_conn lps addr (x, stor) hinv.1
  · intro e he
    rcases mem_putA natLt he with h1 | h1
    · rw [h1]
      exact hstor
    · exact hinv.2 e h1

theorem lpsInv_entry_stor (lps : LocalStateM) (addr : Nat)
    (e : Option (Option AccountM) × List (Nat × Nat)) (hinv : LpsInv lps)
    (hg : getA lps addr = some e) :
    ((e.2).map Prod.fst).Pairwise (fun a b => natLt a b = true) :=
  hinv.2 (addr, e) (mem_of_getA hg)

theorem lpsInv_entry_stor_getD (lps : LocalStateM) (addr : Nat) (hinv : LpsInv lps) :
    ((((getA lps addr).getD (none, [])).2).map Prod.fst).Pairwise
      (fun a b => natLt a b = true) := by
  cases hg : getA lps addr with
  | none => simp
  | some e => simpa using lpsInv_entry_stor lps addr e hinv hg

theorem storageChangesLoop_inv (pS : Nat → Nat → Option Nat)
    (rows : List ((Nat × Nat) × Nat × Nat)) (lps : LocalStateM)
    (sc : List ((Nat × Nat) × List (Nat × Nat × Nat))) (hinv : LpsInv lps) :
    LpsInv (storageChangesLoop pS rows lps sc).1 := by
  induction rows generalizing lps sc with
  | nil => exact hinv
  | cons r rows ih =>
    obtain ⟨⟨bn, addr⟩, key, prior⟩ := r
    show LpsInv (storageChangesLoop pS rows
        (putA natLt lps addr (((getA lps addr).getD (none, [])).1,
          putA natLt ((getA lps addr).getD (none, [])).2 key prior))
        (putA pairLt sc (bn, addr)
          (putA natLt ((getA sc (bn, addr)).getD []) key
            (prior, match getA ((getA lps addr).getD (none, [])).2 key with
              | none => (pS addr key).getD 0
              | some current => current)))).1
    apply ih
    apply lpsInv_putA _ _ _ _ hinv
    exact pairwise_keys_putA natLt natLt_trans natLt_conn _ key prior
      (lpsInv_entry_stor_getD lps addr hinv)

theorem accountChangesLoop_inv (plain : Nat → Option AccountM)
    (rows : List (Nat × Nat × Option AccountM)) (lps : LocalStateM) (bs : BlockStatesM)
    (res : LocalStateM × BlockStatesM)
    (h : accountChangesLoop plain rows lps bs = .ok res) (hinv : LpsInv lps) :
    LpsInv res.1 := by
  induction rows generalizing lps bs with
  | nil =>
    simp only [accountChangesLoop] at h
    cases h
    exact hinv
  | cons r rows ih =>
    obtain ⟨bn, addr, old⟩ := r
    cases hg : getA lps addr with
    | none =>
      have hlps1 : LpsInv (putA natLt lps addr (some old, [])) :=
        lpsInv_putA _ _ _ _ hinv (by simp)
      cases hpl : plain addr with
      | some new_account =>
        cases old with
        | some o =>
          simp only [accountChangesLoop, hg, hpl] at h
          by_cases hne : new_account ≠ o
          · rw [if_pos hne] at h
            exact ih _ _ h hlps1
          · rw [if_neg hne] at h
            simp at h
        | none =>
          simp only [accountChangesLoop, hg, hpl] at h
          exact ih _ _ h hlps1
      | none =>
        cases old with
        | some o =>
          simp only [accountChangesLoop, hg, hpl] at h
          exact ih _ _ h hlps1
        | none =>
          simp only [accountChangesLoop, hg, hpl] at h
          simp at h
    | some es =>
      obtain ⟨slot, stor⟩ := es
      have hstor : (stor.map Prod.fst).Pairwise (fun a b => natLt a b = true) := by
        simpa using lpsInv_entry_stor lps addr (slot, stor) hinv hg
      have hlps1 : LpsInv (putA natLt lps addr (some old, stor)) :=
        lpsInv_putA _ _ _ _ hinv hstor
      cases slot with
      | none =>
        simp only [accountChangesLoop, hg] at h
        simp at h
      | some new_account =>
        cases old with
        | some o =>
          cases new_account with
          | some next =>
            simp only [accountChangesLoop, hg] at h
            by_cases hne : next ≠ o
            · rw [if_pos hne] at h
              exact ih _ _ h hlps1
            · rw [if_neg hne] at h
              simp at h
          | none =>
            simp only [accountChangesLoop, hg] at h
            exact ih _ _ h hlps1
        | none =>
          cases new_account with
          | some account =>
            simp only [accountChangesLoop, hg] at h
            exact ih _ _ h hlps1
          | none =>
            simp only [accountChangesLoop, hg] at h
            simp at h

theorem foldl_updFun2_fixed_other (stor : List (Nat × Nat)) (x : Nat) (g : Nat → Option Nat)
    (f0 : Nat → Nat → Option Nat) (y z : Nat) (h : y ≠ x) :
    (stor.foldl (fun f kv => updFun2 f x kv.1 (g kv.2)) f0) y z = f0 y z := by
  induction stor generalizing f0 with
  | nil => rfl
  | cons kv stor ih =>
    rw [List.foldl_cons, ih]
    simp [updFun2, h]

theorem foldl_updFun2_fixed_getA (stor : List (Nat × Nat)) (x : Nat) (g : Nat → Option Nat)
    (f0 : Nat → Nat → Option Nat) (y : Nat) (hnd : (stor.map Prod.fst).Nodup) :
    (stor.foldl (fun f kv => updFun2 f x kv.1 (g kv.2)) f0) x y =
      match getA stor y with
      | some v => g v
      | none => f0 x y := by
  induction stor generalizing f0 with
  | nil => rfl
  | cons kv stor ih =>
    obtain ⟨ky, v⟩ := kv
    simp only [List.map_cons, List.nodup_cons] at hnd
    rw [List.foldl_cons, ih _ hnd.2]
    by_cases h : y = ky
    · subst h
      have hnone : getA stor y = none := getA_not_mem _ _ (fun k' hk' he => hnd.1 (he ▸ hk'))
      rw [hnone]
      simp [getA, updFun2]
    · cases hget : getA stor y with
      | some v2 => simp [getA, h, hget]
      | none => simp [getA, h, hget, updFun2]

theorem writeBackLocalState_not_mem (lps : LocalStateM) (pa : Nat → Option AccountM)
    (ps : Nat → Nat → Option Nat) (a k : Nat) (h : ∀ e ∈ lps, e.1 ≠ a) :
    (writeBackLocalState lps pa ps).2 a k = ps a k := by
  induction lps generalizing pa ps with
  | nil => rfl
  | cons e lps ih =>
    show (writeBackLocalState lps
        (match e.2.1 with | some account => updFun pa e.1 account | none => pa)
        (e.2.2.foldl
          (fun g kv => updFun2 g e.1 kv.1 (if kv.2 = 0 then none else some kv.2)) ps)).2
        a k = ps a k
    rw [ih _ _ (fun e' he' => h e' (List.mem_cons.mpr (Or.inr he')))]
    exact foldl_updFun2_fixed_other e.2.2 e.1 (fun v => if v = 0 then none else some v) ps a k
      (Ne.symm (h e (List.mem_cons_self e lps)))

theorem writeBackLocalState_storage_at (lps : LocalStateM) (pa : Nat → Option AccountM)
    (ps : Nat → Nat → Option Nat) (a k : Nat)
    (e : Option (Option AccountM) × List (Nat × Nat))
    (hnd : (lps.map Prod.fst).Nodup)
    (hget : getA lps a = some e)
    (hinner : ((e.2).map Prod.fst).Nodup) :
    (writeBackLocalState lps pa ps).2 a k =
      match getA e.2 k with
      | some v => if v = 0 then none else some v
      | none => ps a k := by
  induction lps generalizing pa ps with
  | nil => cases hget
  | cons q lps ih =>
    obtain ⟨qk, qe⟩ := q
    simp only [List.map_cons, List.nodup_cons] at hnd
    show (writeBackLocalState lps
        (match qe.1 with | some account => updFun pa qk account | none => pa)
        (qe.2.foldl
          (fun g kv => updFun2 g qk kv.1 (if kv.2 = 0 then none else some kv.2)) ps)).2
        a k = _
    by_cases hq : a = qk
    · have he : e = qe := by
        rw [show getA ((qk, qe) :: lps) a = some qe from by simp [getA, hq]] at hget
        exact (Option.some_inj.mp hget).symm
      have hrest : ∀ e' ∈ lps, e'.1 ≠ a := by
        intro e' he' hc
        refine hnd.1 ?_
        rw [← hq, ← hc]
        exact List.mem_map.mpr ⟨e', he', rfl⟩
      rw [writeBackLocalState_not_mem _ _ _ a k hrest]
      subst he
      rw [hq]
      exact foldl_updFun2_fixed_getA e.2 qk (fun v => if v = 0 then none else some v) ps k
        hinner
    · have hget' : getA lps a = some e := by
        rw [show getA ((qk, qe) :: lps) a = getA lps a from by simp [getA, hq]] at hget
        exact hget
      rw [ih _ _ hnd.2 hget']
      cases hg2 : getA e.2 k with
      | some v => rfl
      | none =>
        exact foldl_updFun2_fixed_other qe.2 qk (fun v => if v = 0 then none else some v)
          ps a k hq

theorem storageCsInRange_nil (db : DB) (lo hi : Nat) (h : hi < lo) :
    storageCsInRange db lo hi = [] := by
  apply List.filter_eq_nil_iff.mpr
  intro e he
  simp
  omega

theorem get_take_execution_storage_at (db : DB) (lo hi a k : Nat)
    (c : (Nat × Nat) × Nat × Nat)
    (hfind : (storageCsInRange db lo hi).find? (fun e => (e.1.2, e.2.1) = (a, k)) = some c)
    (db2 : DB) (sts : List PostStateM)
    (hok : get_take_block_execution_result_range true db lo hi = .ok (db2, sts)) :
    db2.plainStorageState a k = if c.2.2 = 0 then none else some c.2.2 := by
  by_cases hlt : hi < lo
  · rw [storageCsInRange_nil db lo hi hlt] at hfind
    cases hfind
  · rw [get_take_block_execution_result_range, if_neg hlt] at hok
    simp only [] at hok
    cases hh : (rangeEntries db.blockBodyIndices lo hi).head? with
    | none =>
      rw [hh] at hok
      simp at hok
    | some firstB =>
      cases hl : (rangeEntries db.blockBodyIndices lo hi).getLast? with
      | none =>
        rw [hh, hl] at hok
        simp at hok
      | some lastB =>
        rw [hh, hl] at hok
        cases hacl : accountChangesLoop db.plainAccountState
            (accountCsInRange db lo hi).reverse []
            ((rangeEntries db.blockBodyIndices lo hi).map (fun p => (p.1, PostStateM.empty)))
          with
        | error e =>
          rw [hacl] at hok
          simp at hok
        | ok pr =>
          obtain ⟨lps1, bs1⟩ := pr
          rw [hacl] at hok
          simp only [] at hok
          injection hok with h1
          have h2 : db2 = _ := ((Prod.mk.injEq _ _ _ _).mp h1).1.symm
          have hsc := storageChangesLoop_storAt db.plainStorageState
              (storageCsInRange db lo hi).reverse lps1 [] a k
          rw [List.filter_reverse, List.getLast?_reverse, ← find?_eq_head?_filter,
            hfind] at hsc
          have hinv2 : LpsInv (storageChangesLoop db.plainStorageState
              (storageCsInRange db lo hi).reverse lps1 []).1 :=
            storageChangesLoop_inv _ _ _ _
              (accountChangesLoop_inv _ _ _ _ _ hacl lpsInv_nil)
          cases hga : getA (storageChangesLoop db.plainStorageState
              (storageCsInRange db lo hi).reverse lps1 []).1 a with
          | none => simp [lpsStorAt, hga] at hsc
          | some e2 =>
            have hek : getA e2.2 k = some c.2.2 := by
              simpa [lpsStorAt, hga] using hsc
            have hnd2 := nodup_of_pairwise_keys natLt natLt_irrefl _ hinv2.1
            have hinner := nodup_of_pairwise_keys natLt natLt_irrefl _
              (hinv2.2 (a, e2) (mem_of_getA hga))
            have hwb := writeBackLocalState_storage_at
              (storageChangesLoop db.plainStorageState
                (storageCsInRange db lo hi).reverse lps1 []).1
              ({ db with
                  receipts := deleteRange db.receipts firstB.2.first_tx_num lastB.2.last_tx_num,
                  storageChangeSets :=
                    (db.storageChangeSets.filter (fun e => !(lo ≤ e.1.1 && e.1.1 ≤ hi))),
                  accountChangeSets :=
                    (db.accountChangeSets.filter (fun e => !(lo ≤ e.1 && e.1 ≤ hi))) }).plainAccountState
              db.plainStorageState a k e2 hnd2 hga hinner
            rw [hek] at hwb
            rw [h2]
            exact hwb

/-- C7 witness database: block 7 changed slot 5 of address 1 from `0`
(absent) to some value, block 8 changed it again, and the plain state holds
the current value `42`; blocks 7 and 8 have (empty) bodies. -/
def dbC7 : DB :=
  { emptyDB with
    blockBodyIndices := fun n => if n = 7 ∨ n = 8 then some ⟨0, 0⟩ else none,
    storageChangeSets := [((7, 1), 5, 0), ((8, 1), 5, 17)],
    plainStorageState := fun a kk => if a = 1 ∧ kk = 5 then some 42 else none }

/-- **C7**: for a storage slot whose oldest changeset row in the unwound
range `[lo, hi]` records prior value `v` (`v = 0` meaning the slot did not
exist), `unwind_storage_hashing` leaves `HashedStorage[keccak address]` at
subkey `keccak key` deleted when `v = 0` and upserted to `v` otherwise, and
a succeeding taking unwind (`get_take_block_execution_result_range` with
`TAKE = true`) leaves `PlainStorageState[address][key]` deleted when `v = 0`
and upserted to `v` otherwise (zero is represented by absence). -/
theorem storage_unwind_prior_value_C7 (kec : Nat → Nat) (db : DB) (lo hi a k : Nat)
    (c : (Nat × Nat) × Nat × Nat)
    (hkec : Function.Injective kec)
    (hfind : (storageCsInRange db lo hi).find? (fun e => (e.1.2, e.2.1) = (a, k)) = some c)
    (db2 : DB) (sts : List PostStateM)
    (hok : get_take_block_execution_result_range true db lo hi = .ok (db2, sts)) :
    (unwind_storage_hashing kec db lo hi).hashedStorage (kec a) (kec k) =
      (if c.2.2 = 0 then none else some c.2.2)
    ∧ db2.plainStorageState a k = (if c.2.2 = 0 then none else some c.2.2) :=
  ⟨unwind_storage_hashing_at kec hkec db lo hi a k c hfind,
   get_take_execution_storage_at db lo hi a k c hfind db2 sts hok⟩

/-- C7 at `dbC7`: the oldest prior of slot `(1, 5)` over `[7, 8]` is `0`, so
the hashed-storage row at the (injectively) hashed key and the plain-state
row are both deleted. -/
theorem storage_unwind_prior_value_C7_witness :
    Function.Injective (fun n : Nat => n + 100)
    ∧ (storageCsInRange dbC7 7 8).find?
        (fun e => (e.1.2, e.2.1) = (1, 5)) = some ((7, 1), 5, 0)
    ∧ (unwind_storage_hashing (fun n => n + 100) dbC7 7 8).hashedStorage 101 105 = none
    ∧ (get_take_block_execution_result_range true dbC7 7 8).map
        (fun r => r.1.plainStorageState 1 5) = .ok none := by
  cases hr : get_take_block_execution_result_range true dbC7 7 8 with
  | error e =>
    have hne : (get_take_block_execution_result_range true dbC7 7 8).toOption.isSome
        = true := rfl
    rw [hr] at hne
    exact Bool.noConfusion hne
  | ok r =>
    have h := storage_unwind_prior_value_C7 (fun n => n + 100) dbC7 7 8 1 5 ((7, 1), 5, 0)
        (fun x y hxy => Nat.add_right_cancel hxy) rfl r.1 r.2 (by rw [hr])
    refine ⟨fun x y hxy => Nat.add_right_cancel hxy, rfl, ?_, ?_⟩
    · exact h.1
    · show Except.ok (r.1.plainStorageState 1 5) = Except.ok none
      rw [h.2]
      rfl

/-- **C8**: beyond the chain spec's final Paris block, `header_td_by_number`
returns the terminal total difficulty for *every* database (the `HeaderTD`
table is not consulted); at or before the Paris block — or when the spec
records no Paris block — it returns the stored `HeaderTD` value. -/
theorem header_td_by_number_C8 (spec : ChainSpecM) (db : DB) (number : Nat) :
    (∀ pb ttd, spec.parisBlockAndFinalDifficulty = some (pb, ttd) → pb < number →
      ∀ db' : DB, header_td_by_number spec db' number = some ttd)
    ∧ ((∀ pb ttd, spec.parisBlockAndFinalDifficulty = some (pb, ttd) → ¬pb < number) →
      header_td_by_number spec db number = db.headerTD number) := by
  constructor
  · intro pb ttd hp hlt db'
    simp [header_td_by_number, ChainSpecM.final_paris_difficulty, hp, hlt]
  · intro h
    cases hp : spec.parisBlockAndFinalDifficulty with
    | none => simp [header_td_by_number, ChainSpecM.final_paris_difficulty, hp]
    | some p =>
      have hnlt := h p.1 p.2 (by rw [hp])
      simp [header_td_by_number, ChainSpecM.final_paris_difficulty, hp, hnlt]

/-- C8 witness chain spec: Paris at block 10 with terminal difficulty 999. -/
def specC8 : ChainSpecM := ⟨some (10, 999), none⟩

/-- C8 witness database: a stored TD row for block 5 only. -/
def dbC8 : DB := { emptyDB with headerTD := fun n => if n = 5 then some 55 else none }

/-- C8 at `specC8` / `dbC8`: block 11 is beyond Paris and yields the terminal
difficulty, block 5 is not and yields the stored row. -/
theorem header_td_by_number_C8_witness :
    header_td_by_number specC8 dbC8 11 = some 999
    ∧ header_td_by_number specC8 dbC8 5 = some 55 := by
  constructor
  · exact (header_td_by_number_C8 specC8 dbC8 11).1 10 999 rfl (by omega) dbC8
  · have h := (header_td_by_number_C8 specC8 dbC8 5).2 (fun pb ttd hp => by
      have h1 : pb = 10 := by
        have h2 := Option.some_inj.mp hp
        exact (((Prod.mk.injEq _ _ _ _).mp h2).1).symm
      omega)
    rw [h]
    rfl

/-- C9 counterexample chain spec: Shanghai active from timestamp 0. -/
def specC9 : ChainSpecM := ⟨none, some 0⟩

/-- **C9** counterexample: Shanghai is active at timestamp 100, yet
`withdrawals_by_block` returns `none` for a hash id that has no
`HeaderNumbers` row — the claim promises `Some` whenever Shanghai is
active. -/
theorem withdrawals_shanghai_C9_counterexample :
    specC9.is_shanghai_activated_at_timestamp 100 = true
    ∧ withdrawals_by_block specC9 emptyDB (.hash 77) 100 = none := ⟨rfl, rfl⟩

/-- **C9** (amended): `withdrawals_by_block` returns a list (the stored row,
or the empty list when the row is absent) exactly when Shanghai is active at
the timestamp **and** the block id resolves to a block number; it returns
`none` when Shanghai is not active, and also when an active-era hash id has
no `HeaderNumbers` entry. -/
theorem withdrawals_shanghai_C9 (spec : ChainSpecM) (db : DB) (id : BlockHashOrNumberM)
    (timestamp : Nat) :
    withdrawals_by_block spec db id timestamp =
      (if spec.is_shanghai_activated_at_timestamp timestamp then
        (convert_hash_or_number db id).map (fun n => (db.blockWithdrawals n).getD [])
      else none) := by
  by_cases h : spec.is_shanghai_activated_at_timestamp timestamp
  · cases hc : convert_hash_or_number db id <;>
      simp [withdrawals_by_block, h, hc]
  · simp [withdrawals_by_block, h]

/-- C10 witness database: block 3 with two transactions and their senders. -/
def dbC10 : DB :=
  { emptyDB with
    headers := fun n => if n = 3 then some ⟨77, 50⟩ else none,
    blockBodyIndices := fun n => if n = 3 then some ⟨0, 2⟩ else none,
    transactions := fun n =>
      if n = 0 then some ⟨11, 21⟩ else if n = 1 then some ⟨12, 22⟩ else none,
    txSenders := fun n => if n = 0 then some 31 else if n = 1 then some 32 else none }

/-- **C10**: for a stored block (header and body indices present),
`block_with_senders` succeeds and every returned transaction carries the
default hash `0`, while the signatures and payloads are exactly the stored
transactions of the block's range and the sender list is the stored sender
range. -/
theorem block_with_senders_zero_hash_C10 (spec : ChainSpecM) (db : DB) (bn : Nat)
    (header : HeaderM) (body : StoredBlockBodyIndicesM)
    (hh : db.headers bn = some header)
    (hb : db.blockBodyIndices bn = some body) :
    ∃ blk : BlockWithSendersM,
      block_with_senders spec db bn = .ok (some blk)
      ∧ blk.header = header
      ∧ (∀ tx ∈ blk.body, tx.hash = 0)
      ∧ blk.body.map (fun tx => (tx.signature, tx.transaction))
          = (if body.tx_count = 0 then [] else
              transactions_by_tx_range db body.first_tx_num body.last_tx_num).map
              (fun tx => (tx.signature, tx.transaction))
      ∧ blk.senders = (if body.tx_count = 0 then [] else
          senders_by_tx_range db body.first_tx_num body.last_tx_num) := by
  refine ⟨{ header := header,
            body := (if body.tx_count = 0 then [] else
              transactions_by_tx_range db body.first_tx_num body.last_tx_num).map
              (fun tx =>
                { hash := 0, signature := tx.signature, transaction := tx.transaction }),
            ommers := (db.blockOmmers bn).getD [],
            withdrawals := withdrawals_by_block spec db (.number bn) header.timestamp,
            senders := (if body.tx_count = 0 then [] else
              senders_by_tx_range db body.first_tx_num body.last_tx_num) },
    ?_, rfl, ?_, ?_, rfl⟩
  · simp only [block_with_senders, hh, hb]
    by_cases hc : body.tx_count = 0
    · simp [hc]
    · simp [hc]
  · intro tx htx
    simp only [List.mem_map] at htx
    obtain ⟨tx0, _, htx0⟩ := htx
    rw [← htx0]
  · rw [List.map_map]
    rfl

/-- C10 at `dbC10`: both stored transactions come back with hash `0`, their
stored signature/payload pairs, and the stored senders. -/
theorem block_with_senders_zero_hash_C10_witness :
    dbC10.headers 3 = some ⟨77, 50⟩
    ∧ dbC10.blockBodyIndices 3 = some ⟨0, 2⟩
    ∧ ∃ blk : BlockWithSendersM,
        block_with_senders ⟨none, none⟩ dbC10 3 = .ok (some blk)
        ∧ blk.header = (⟨77, 50⟩ : HeaderM)
        ∧ (∀ tx ∈ blk.body, tx.hash = 0)
        ∧ blk.body.map (fun tx => (tx.signature, tx.transaction)) = [(11, 21), (12, 22)]
        ∧ blk.senders = [31, 32] :=
  ⟨rfl, rfl, block_with_senders_zero_hash_C10 ⟨none, none⟩ dbC10 3 ⟨77, 50⟩ ⟨0, 2⟩ rfl rfl⟩
